import Mathlib

/-!
# Verification of the `IterativeDeepening` chess engine (`homemade.py`)

Shallow embedding of the engine's core:

* the tapered static evaluation `heuristic` (piece values, piece-square
  tables, game-phase taper, terminal checks);
* the time allocator `computation_time`;
* the alpha-beta search `alphabeta`, the root search `decide` and the
  iterative-deepening controller `search`, modelled as explicit
  state-passing functions over an abstract game tree supplied by the
  (external, trusted) rules engine.

Machine integers do not overflow here (Python ints are unbounded), so all
arithmetic is over `Int` / `Rat`.
-/

namespace Engine

/-! ## Piece types and evaluation tables

`chess.PAWN = 1`, `chess.KNIGHT = 2`, `chess.BISHOP = 3`, `chess.ROOK = 4`,
`chess.QUEEN = 5`, `chess.KING = 6` in python-chess; colors are modelled as
`Bool` with `true = chess.WHITE`. -/

inductive PieceType where
  | pawn
  | knight
  | bishop
  | rook
  | queen
  | king
deriving DecidableEq

/-- The numeric `piece_type` value python-chess assigns to each piece type. -/
def pieceTypeIndex : PieceType → Nat
  | .pawn => 1
  | .knight => 2
  | .bishop => 3
  | .rook => 4
  | .queen => 5
  | .king => 6

def MID_GAME_CHESS_PIECE_VALUES : PieceType → Int
  | .pawn => 82
  | .knight => 337
  | .bishop => 365
  | .rook => 477
  | .queen => 1025
  | .king => 99999

def END_GAME_CHESS_PIECE_VALUES : PieceType → Int
  | .pawn => 94
  | .knight => 281
  | .bishop => 297
  | .rook => 512
  | .queen => 936
  | .king => 99999

def MID_GAME_PAWN_PIECE_SQUARE_TABLES_BLACK : List Int :=
  [0, 0, 0, 0, 0, 0, 0, 0,
   98, 134, 61, 95, 68, 126, 34, -11,
   -6, 7, 26, 31, 65, 56, 25, -20,
   -14, 13, 6, 21, 23, 12, 17, -23,
   -27, -2, -5, 12, 17, 6, 10, -25,
   -26, -4, -4, -10, 3, 3, 33, -12,
   -35, -1, -20, -23, -15, 24, 38, -22,
   0, 0, 0, 0, 0, 0, 0, 0]

def MID_GAME_PAWN_PIECE_SQUARE_TABLES_WHITE : List Int :=
  MID_GAME_PAWN_PIECE_SQUARE_TABLES_BLACK.reverse

def END_GAME_PAWN_PIECE_SQUARE_TABLES_BLACK : List Int :=
  [0, 0, 0, 0, 0, 0, 0, 0,
   178, 173, 158, 134, 147, 132, 165, 187,
   94, 100, 85, 67, 56, 53, 82, 84,
   32, 24, 13, 5, -2, 4, 17, 17,
   13, 9, -3, -7, -7, -8, 3, -1,
   4, 7, -6, 1, 0, -5, -1, -8,
   13, 8, 8, 10, 13, 0, 2, -7,
   0, 0, 0, 0, 0, 0, 0, 0]

def END_GAME_PAWN_PIECE_SQUARE_TABLES_WHITE : List Int :=
  END_GAME_PAWN_PIECE_SQUARE_TABLES_BLACK.reverse

def MID_GAME_KNIGHT_PIECE_SQUARE_TABLES_BLACK : List Int :=
  [-167, -89, -34, -49, 61, -97, -15, -107,
   -73, -41, 72, 36, 23, 62, 7, -17,
   -47, 60, 37, 65, 84, 129, 73, 44,
   -9, 17, 19, 53, 37, 69, 18, 22,
   -13, 4, 16, 13, 28, 19, 21, -8,
   -23, -9, 12, 10, 19, 17, 25, -16,
   -29, -53, -12, -3, -1, 18, -14, -19,
   -105, -21, -58, -33, -17, -28, -19, -23]

def MID_GAME_KNIGHT_PIECE_SQUARE_TABLES_WHITE : List Int :=
  MID_GAME_KNIGHT_PIECE_SQUARE_TABLES_BLACK.reverse

def END_GAME_KNIGHT_PIECE_SQUARE_TABLES_BLACK : List Int :=
  [-58, -38, -13, -28, -31, -27, -63, -99,
   -25, -8, -25, -2, -9, -25, -24, -52,
   -24, -20, 10, 9, -1, -9, -19, -41,
   -17, 3, 22, 22, 22, 11, 8, -18,
   -18, -6, 16, 25, 16, 17, 4, -18,
   -23, -3, -1, 15, 10, -3, -20, -22,
   -42, -20, -10, -5, -2, -20, -23, -44,
   -29, -51, -23, -15, -22, -18, -50, -64]

def END_GAME_KNIGHT_PIECE_SQUARE_TABLES_WHITE : List Int :=
  END_GAME_KNIGHT_PIECE_SQUARE_TABLES_BLACK.reverse

def MID_GAME_BISHOP_PIECE_SQUARE_TABLES_BLACK : List Int :=
  [-29, 4, -82, -37, -25, -42, 7, -8,
   -26, 16, -18, -13, 30, 59, 18, -47,
   -16, 37, 43, 40, 35, 50, 37, -2,
   -4, 5, 19, 50, 37, 37, 7, -2,
   -6, 13, 13, 26, 34, 12, 10, 4,
   0, 15, 15, 15, 14, 27, 18, 10,
   4, 15, 16, 0, 7, 21, 33, 1,
   -33, -3, -14, -21, -13, -12, -39, -21]

def MID_GAME_BISHOP_PIECE_SQUARE_TABLES_WHITE : List Int :=
  MID_GAME_BISHOP_PIECE_SQUARE_TABLES_BLACK.reverse

def END_GAME_BISHOP_PIECE_SQUARE_TABLES_BLACK : List Int :=
  [-14, -21, -11, -8, -7, -9, -17, -24,
   -8, -4, 7, -12, -3, -13, -4, -14,
   2, -8, 0, -1, -2, 6, 0, 4,
   -3, 9, 12, 9, 14, 10, 3, 2,
   -6, 3, 13, 19, 7, 10, -3, -9,
   -12, -3, 8, 10, 13, 3, -7, -15,
   -14, -18, -7, -1, 4, -9, -15, -27,
   -23, -9, -23, -5, -9, -16, -5, -17]

def END_GAME_BISHOP_PIECE_SQUARE_TABLES_WHITE : List Int :=
  END_GAME_BISHOP_PIECE_SQUARE_TABLES_BLACK.reverse

def MID_GAME_ROOK_PIECE_SQUARE_TABLES_BLACK : List Int :=
  [32, 42, 32, 51, 63, 9, 31, 43,
   27, 32, 58, 62, 80, 67, 26, 44,
   -5, 19, 26, 36, 17, 45, 61, 16,
   -24, -11, 7, 26, 24, 35, -8, -20,
   -36, -26, -12, -1, 9, -7, 6, -23,
   -45, -25, -16, -17, 3, 0, -5, -33,
   -44, -16, -20, -9, -1, 11, -6, -71,
   -19, -13, 1, 17, 16, 7, -37, -26]

def MID_GAME_ROOK_PIECE_SQUARE_TABLES_WHITE : List Int :=
  MID_GAME_ROOK_PIECE_SQUARE_TABLES_BLACK.reverse

def END_GAME_ROOK_PIECE_SQUARE_TABLES_BLACK : List Int :=
  [13, 10, 18, 15, 12, 12, 8, 5,
   11, 13, 13, 11, -3, 3, 8, 3,
   7, 7, 7, 5, 4, -3, -5, -3,
   4, 3, 13, 1, 2, 1, -1, 2,
   3, 5, 8, 4, -5, -6, -8, -11,
   -4, 0, -5, -1, -7, -12, -8, -16,
   -6, -6, 0, 2, -9, -9, -11, -3,
   -9, 2, 3, -1, -5, -13, 4, -20]

def END_GAME_ROOK_PIECE_SQUARE_TABLES_WHITE : List Int :=
  END_GAME_ROOK_PIECE_SQUARE_TABLES_BLACK.reverse

def MID_GAME_QUEEN_PIECE_SQUARE_TABLES_BLACK : List Int :=
  [-28, 0, 29, 12, 59, 44, 43, 45,
   -24, -39, -5, 1, -16, 57, 28, 54,
   -13, -17, 7, 8, 29, 56, 47, 57,
   -27, -27, -16, -16, -1, 17, -2, 1,
   -9, -26, -9, -10, -2, -4, 3, -3,
   -14, 2, -11, -2, -5, 2, 14, 5,
   -35, -8, 11, 2, 8, 15, -3, 1,
   -1, -18, -9, 10, -15, -25, -31, -50]

def MID_GAME_QUEEN_PIECE_SQUARE_TABLES_WHITE : List Int :=
  MID_GAME_QUEEN_PIECE_SQUARE_TABLES_BLACK.reverse

def END_GAME_QUEEN_PIECE_SQUARE_TABLES_BLACK : List Int :=
  [-9, 22, 22, 27, 27, 19, 10, 20,
   -17, 20, 32, 41, 58, 25, 30, 0,
   -20, 6, 9, 49, 47, 35, 19, 9,
   3, 22, 24, 45, 57, 40, 57, 36,
   -18, 28, 19, 47, 31, 34, 39, 23,
   -16, -27, 15, 6, 9, 17, 10, 5,
   -22, -23, -30, -16, -16, -23, -36, -32,
   -33, -28, -22, -43, -5, -32, -20, -41]

def END_GAME_QUEEN_PIECE_SQUARE_TABLES_WHITE : List Int :=
  END_GAME_QUEEN_PIECE_SQUARE_TABLES_BLACK.reverse

def MID_GAME_KING_PIECE_SQUARE_TABLES_BLACK : List Int :=
  [-65, 23, 16, -15, -56, -34, 2, 13,
   29, -1, -20, -7, -8, -4, -38, -29,
   -9, 24, 2, -16, -20, 6, 22, -22,
   -17, -20, -12, -27, -30, -25, -14, -36,
   -49, -1, -27, -39, -46, -44, -33, -51,
   -14, -14, -22, -46, -44, -30, -15, -27,
   1, 7, -8, -64, -43, -16, 9, 8,
   -15, 36, 12, -54, 8, -28, 24, 14]

def MID_GAME_KING_PIECE_SQUARE_TABLES_WHITE : List Int :=
  MID_GAME_KING_PIECE_SQUARE_TABLES_BLACK.reverse

def END_GAME_KING_PIECE_SQUARE_TABLES_BLACK : List Int :=
  [-74, -35, -18, -18, -11, 15, 4, -17,
   -12, 17, 14, 17, 17, 38, 23, 11,
   10, 17, 23, 15, 20, 45, 44, 13,
   -8, 22, 24, 27, 26, 33, 26, 3,
   -18, -4, 21, 24, 27, 23, 9, -11,
   -19, -3, 11, 21, 23, 16, 7, -9,
   -27, -11, 4, 13, 14, 4, -5, -17,
   -53, -34, -21, -11, -28, -14, -24, -43]

def END_GAME_KING_PIECE_SQUARE_TABLES_WHITE : List Int :=
  END_GAME_KING_PIECE_SQUARE_TABLES_BLACK.reverse

/-- The literal list `game_phase_inc` from `heuristic`
(`[0, 0, 1, 1, 1, 1, 2, 2, 4, 4, 0, 0]`). -/
def game_phase_inc : List Int := [0, 0, 1, 1, 1, 1, 2, 2, 4, 4, 0, 0]

/-- `game_phase_inc[piece.piece_type]` as the code computes it: the list is
indexed directly by the python-chess `piece_type` number (1..6).  (All those
indices are in range, so `getD` agrees with Python indexing.) -/
def phaseInc (pt : PieceType) : Int :=
  game_phase_inc.getD (pieceTypeIndex pt) 0

/-- Selector collecting the `elif` chain on `piece.piece_type` for the
middlegame piece-square tables (`true` = white tables). -/
def midTable (pt : PieceType) (white : Bool) : List Int :=
  match pt, white with
  | .pawn, true => MID_GAME_PAWN_PIECE_SQUARE_TABLES_WHITE
  | .pawn, false => MID_GAME_PAWN_PIECE_SQUARE_TABLES_BLACK
  | .knight, true => MID_GAME_KNIGHT_PIECE_SQUARE_TABLES_WHITE
  | .knight, false => MID_GAME_KNIGHT_PIECE_SQUARE_TABLES_BLACK
  | .bishop, true => MID_GAME_BISHOP_PIECE_SQUARE_TABLES_WHITE
  | .bishop, false => MID_GAME_BISHOP_PIECE_SQUARE_TABLES_BLACK
  | .rook, true => MID_GAME_ROOK_PIECE_SQUARE_TABLES_WHITE
  | .rook, false => MID_GAME_ROOK_PIECE_SQUARE_TABLES_BLACK
  | .queen, true => MID_GAME_QUEEN_PIECE_SQUARE_TABLES_WHITE
  | .queen, false => MID_GAME_QUEEN_PIECE_SQUARE_TABLES_BLACK
  | .king, true => MID_GAME_KING_PIECE_SQUARE_TABLES_WHITE
  | .king, false => MID_GAME_KING_PIECE_SQUARE_TABLES_BLACK

/-- Selector for the endgame piece-square tables. -/
def endTable (pt : PieceType) (white : Bool) : List Int :=
  match pt, white with
  | .pawn, true => END_GAME_PAWN_PIECE_SQUARE_TABLES_WHITE
  | .pawn, false => END_GAME_PAWN_PIECE_SQUARE_TABLES_BLACK
  | .knight, true => END_GAME_KNIGHT_PIECE_SQUARE_TABLES_WHITE
  | .knight, false => END_GAME_KNIGHT_PIECE_SQUARE_TABLES_BLACK
  | .bishop, true => END_GAME_BISHOP_PIECE_SQUARE_TABLES_WHITE
  | .bishop, false => END_GAME_BISHOP_PIECE_SQUARE_TABLES_BLACK
  | .rook, true => END_GAME_ROOK_PIECE_SQUARE_TABLES_WHITE
  | .rook, false => END_GAME_ROOK_PIECE_SQUARE_TABLES_BLACK
  | .queen, true => END_GAME_QUEEN_PIECE_SQUARE_TABLES_WHITE
  | .queen, false => END_GAME_QUEEN_PIECE_SQUARE_TABLES_BLACK
  | .king, true => END_GAME_KING_PIECE_SQUARE_TABLES_WHITE
  | .king, false => END_GAME_KING_PIECE_SQUARE_TABLES_BLACK

/-! ## The evaluation board

The rules engine (python-chess) is an external trusted collaborator; the
evaluator only consumes `piece_at` over the 64 squares, the side to move, and
the terminal-state predicates, so a position is modelled by exactly those
observations. -/

structure BoardE where
  pieceAt : Fin 64 → Option (PieceType × Bool)
  turn : Bool
  is_checkmate : Bool
  winner : Option Bool
  is_stalemate : Bool
  is_insufficient_material : Bool

/-- Accumulator of the square loop of `heuristic`. -/
structure EvalAcc where
  game_phase : Int
  mw : Int
  ew : Int
  mb : Int
  eb : Int
deriving DecidableEq

/-- The body of `for square in chess.SQUARES`, parameterised by the
phase-weight function `w` (the code uses `phaseInc`; claim C1 is settled
against the weights the spec states). -/
def evalStep (w : PieceType → Int) (b : BoardE) (acc : EvalAcc) (square : Fin 64) :
    EvalAcc :=
  match b.pieceAt square with
  | none => acc
  | some (pt, color) =>
    let acc := { acc with game_phase := acc.game_phase + w pt }
    if color then
      { acc with
        mw := acc.mw + MID_GAME_CHESS_PIECE_VALUES pt + (midTable pt true).getD square.val 0,
        ew := acc.ew + END_GAME_CHESS_PIECE_VALUES pt + (endTable pt true).getD square.val 0 }
    else
      { acc with
        mb := acc.mb + MID_GAME_CHESS_PIECE_VALUES pt + (midTable pt false).getD square.val 0,
        eb := acc.eb + END_GAME_CHESS_PIECE_VALUES pt + (endTable pt false).getD square.val 0 }

/-- The accumulation and taper of `heuristic` after the terminal checks,
parameterised by the phase-weight function. -/
def heuristicCore (w : PieceType → Int) (b : BoardE) : Int :=
  let acc := (List.finRange 64).foldl (evalStep w b) ⟨0, 0, 0, 0, 0⟩
  let middle_game_phase := if acc.game_phase > 24 then 24 else acc.game_phase
  let end_game_phase := 24 - middle_game_phase
  let mid_score := acc.mw - acc.mb
  let end_score := acc.ew - acc.eb
  mid_score * middle_game_phase + end_score * end_game_phase

/-- `IterativeDeepening.heuristic`: terminal checks first, then the tapered
material + piece-square accumulation with the phase weights the code actually
reads (`game_phase_inc[piece.piece_type]`). -/
def heuristic (b : BoardE) : Int :=
  if b.is_checkmate then
    if b.winner = some true then 9999999 else -9999999
  else if b.is_stalemate || b.is_insufficient_material then 0
  else heuristicCore phaseInc b

/-- Modelled from the spec (claim C1): the game-phase counter with the stated
per-piece weights — pawns and kings 0, knights and bishops 1, rooks 2,
queens 4. -/
def phaseIncClaim : PieceType → Int
  | .pawn => 0
  | .knight => 1
  | .bishop => 1
  | .rook => 2
  | .queen => 4
  | .king => 0

/-- Modelled from the spec (claim C1): the evaluation the claim describes —
identical to `heuristic` except that the phase counter uses the claimed
weights. -/
def heuristicClaim (b : BoardE) : Int :=
  if b.is_checkmate then
    if b.winner = some true then 9999999 else -9999999
  else if b.is_stalemate || b.is_insufficient_material then 0
  else heuristicCore phaseIncClaim b

/-- The phase weights the code actually uses, by piece type: pawn 0,
knight 1, bishop 1, rook 1, queen 1, king 2 — because
`game_phase_inc[piece.piece_type]` indexes the 12-entry per-piece-code table
with the 1-based piece-type number. -/
theorem phaseInc_values :
    phaseInc .pawn = 0 ∧ phaseInc .knight = 1 ∧ phaseInc .bishop = 1 ∧
    phaseInc .rook = 1 ∧ phaseInc .queen = 1 ∧ phaseInc .king = 2 := by
  decide

/-- A non-terminal position: white king e1 (square 4), black king e8
(square 60), white rook a4 (square 24), white to move.  With the real rules
engine this position is not checkmate, not stalemate (white has moves and is
not in check), and not insufficient material (a rook is present), so the
terminal flags are all false. -/
def c1Board : BoardE where
  pieceAt := fun sq =>
    if sq.val = 4 then some (.king, true)
    else if sq.val = 60 then some (.king, false)
    else if sq.val = 24 then some (.rook, true)
    else none
  turn := true
  is_checkmate := false
  winner := none
  is_stalemate := false
  is_insufficient_material := false

/-- C1: the code does NOT compute the game-phase counter the claim states.
On `c1Board` the code's phase counter is rook 1 + kings 2+2 = 5 (middlegame
phase 5, endgame phase 19) giving 11802, while the claimed weights (rook 2,
kings 0) give phase 2 and 12180.  The 12-entry `game_phase_inc` table itself
carries exactly the claimed weights laid out per piece *code* (two entries
per type), so indexing it by `piece.piece_type` is a slip in the code, not in
the spec. -/
theorem c1_phase_weights_bug :
    heuristic c1Board = 11802 ∧ heuristicClaim c1Board = 12180 ∧
    heuristic c1Board ≠ heuristicClaim c1Board := by
  refine ⟨by decide, by decide, by decide⟩

/-! ## C8: terminal scoring happens before material accumulation -/

/-- C8: on a checkmate position `heuristic` returns the negative sentinel
exactly when white is the checkmated side (python-chess reports the winner as
the opponent of the side to move, i.e. `winner = some (!turn)`), and the
positive sentinel otherwise; on a stalemate or insufficient-material position
it returns 0.  The result is independent of the piece placement because the
terminal check precedes the accumulation loop (the statement quantifies over
every `pieceAt`). -/
theorem c8_terminal_first (b : BoardE) :
    (b.is_checkmate = true → b.winner = some (!b.turn) →
      heuristic b = if b.turn then -9999999 else 9999999)
    ∧ (b.is_checkmate = false →
        (b.is_stalemate = true ∨ b.is_insufficient_material = true) →
        heuristic b = 0) := by
  constructor
  · intro hc hw
    cases hb : b.turn <;> simp [heuristic, hc, hw, hb]
  · intro hc hs
    rcases hs with hs | hs <;> simp [heuristic, hc, hs]

/-- An (otherwise empty) board whose oracle flags report checkmate with black
as the winner, white to move. -/
def cmBoard : BoardE where
  pieceAt := fun _ => none
  turn := true
  is_checkmate := true
  winner := some false
  is_stalemate := false
  is_insufficient_material := false

/-- A board whose oracle flags report stalemate. -/
def stBoard : BoardE where
  pieceAt := fun _ => none
  turn := true
  is_checkmate := false
  winner := none
  is_stalemate := true
  is_insufficient_material := false

/-- Witness for `c8_terminal_first` at concrete boards. -/
theorem c8_terminal_first_witness :
    heuristic cmBoard = -9999999 ∧ heuristic stBoard = 0 :=
  ⟨(c8_terminal_first cmBoard).1 rfl rfl,
   (c8_terminal_first stBoard).2 rfl (Or.inl rfl)⟩

/-! ## C9: the sentinels are (almost) reserved

The claim quantifies over *any* assignment of pieces to the 64 squares.
That is too strong: king material is worth 99999 per king, so a board with
several kings of one colour overflows the sentinel.  `kingsB` below is such
an assignment, and it is genuinely non-terminal for the real rules engine:
white to move with legal king/queen moves and no black pieces, so no check,
no checkmate, no stalemate, and a queen rules out insufficient material.
Restricted to boards with at most two kings (every legal chess position),
the bound does hold, with plenty of slack. -/

/-- Five white kings (squares 0–4) and a white queen (square 5). -/
def kingsB : BoardE where
  pieceAt := fun sq =>
    if sq.val < 5 then some (.king, true)
    else if sq.val = 5 then some (.queen, true)
    else none
  turn := true
  is_checkmate := false
  winner := none
  is_stalemate := false
  is_insufficient_material := false

/-- C9 counterexample: a non-terminal assignment of pieces to the 64 squares
on which `heuristic` exceeds the positive sentinel (its value is
12020982). -/
theorem c9_sentinel_collision : 9999999 < heuristic kingsB := by decide

/-- Per-piece cap on the absolute material + piece-square contribution of one
occupied square (per weighting set): every table entry lies in [-200, 200],
so a king contributes at most 99999 + 200 and any other piece at most
1025 + 200. -/
def pieceCap (pt : PieceType) : Int :=
  if pt = .king then 100199 else 1225

/-- Elements of a list bounded on both sides bound `getD` at every index
(the default 0 is inside the interval). -/
theorem getD_bound (L : List Int) (lo hi : Int) (hlo : lo ≤ 0) (hhi : 0 ≤ hi)
    (h : ∀ x ∈ L, lo ≤ x ∧ x ≤ hi) :
    ∀ i : Nat, lo ≤ L.getD i 0 ∧ L.getD i 0 ≤ hi := by
  intro i
  induction L generalizing i with
  | nil => simpa [List.getD] using ⟨hlo, hhi⟩
  | cons a t ih =>
    cases i with
    | zero => simpa [List.getD] using h a (by simp)
    | succ n => simpa [List.getD] using ih (fun x hx => h x (by simp [hx])) n

/-- All 24 piece-square tables have entries in [-200, 200]. -/
theorem table_bound (pt : PieceType) (w : Bool) (i : Nat) :
    (-200 ≤ (midTable pt w).getD i 0 ∧ (midTable pt w).getD i 0 ≤ 200)
    ∧ (-200 ≤ (endTable pt w).getD i 0 ∧ (endTable pt w).getD i 0 ≤ 200) := by
  cases pt <;> cases w <;>
    exact ⟨getD_bound _ _ _ (by norm_num) (by norm_num) (by decide) i,
           getD_bound _ _ _ (by norm_num) (by norm_num) (by decide) i⟩

/-- The material + piece-square contribution of one occupied square is
bounded by `pieceCap` in absolute value, in both weighting sets. -/
theorem contrib_bound (pt : PieceType) (w : Bool) (i : Nat) :
    (MID_GAME_CHESS_PIECE_VALUES pt + (midTable pt w).getD i 0 ≤ pieceCap pt
      ∧ -pieceCap pt ≤ MID_GAME_CHESS_PIECE_VALUES pt + (midTable pt w).getD i 0)
    ∧ (END_GAME_CHESS_PIECE_VALUES pt + (endTable pt w).getD i 0 ≤ pieceCap pt
      ∧ -pieceCap pt ≤ END_GAME_CHESS_PIECE_VALUES pt + (endTable pt w).getD i 0) := by
  have h := table_bound pt w i
  cases pt <;>
    simp only [pieceCap, MID_GAME_CHESS_PIECE_VALUES, END_GAME_CHESS_PIECE_VALUES,
      if_pos, if_neg, reduceCtorEq, reduceIte] at h ⊢ <;> omega

/-- Cap of a single square: 0 if empty, `pieceCap` of its piece otherwise. -/
def sqCap (b : BoardE) (sq : Fin 64) : Int :=
  match b.pieceAt sq with
  | none => 0
  | some (pt, _) => pieceCap pt

/-- Number of squares of `l` that hold a king (of either colour). -/
def kingsIn (b : BoardE) (l : List (Fin 64)) : Nat :=
  l.countP (fun sq =>
    match b.pieceAt sq with
    | some (.king, _) => true
    | _ => false)

/-- The summed caps of a square list: at most 1225 per square plus the king
surcharge for each king. -/
theorem capSum_le (b : BoardE) : ∀ l : List (Fin 64),
    (l.map (sqCap b)).sum ≤ 1225 * (l.length : Int) + 98974 * (kingsIn b l : Int) := by
  intro l
  induction l with
  | nil => simp [kingsIn]
  | cons a t ih =>
    rcases hp : b.pieceAt a with _ | ⟨pt, c⟩
    · have hcap : sqCap b a = 0 := by simp [sqCap, hp]
      have hk : kingsIn b (a :: t) = kingsIn b t := by
        simp [kingsIn, List.countP_cons, hp]
      simp only [List.map_cons, List.sum_cons, List.length_cons, hcap, hk]
      push_cast
      omega
    · cases pt
      all_goals {
        first
        | -- king case
          (have hcap : sqCap b a = 100199 := by simp [sqCap, hp, pieceCap]
           have hk : kingsIn b (a :: t) = kingsIn b t + 1 := by
             simp [kingsIn, List.countP_cons, hp]
           simp only [List.map_cons, List.sum_cons, List.length_cons, hcap, hk]
           push_cast
           omega)
        | -- non-king cases
          (have hcap : sqCap b a = 1225 := by simp [sqCap, hp, pieceCap]
           have hk : kingsIn b (a :: t) = kingsIn b t := by
             simp [kingsIn, List.countP_cons, hp]
           simp only [List.map_cons, List.sum_cons, List.length_cons, hcap, hk]
           push_cast
           omega)
      }

/-- Folding `evalStep` moves the white−black differences by at most the
summed caps of the squares processed, and never decreases the phase
counter. -/
theorem eval_fold_bound (b : BoardE) : ∀ (l : List (Fin 64)) (acc : EvalAcc),
    ((l.foldl (evalStep phaseInc b) acc).mw - (l.foldl (evalStep phaseInc b) acc).mb
        ≤ acc.mw - acc.mb + (l.map (sqCap b)).sum
      ∧ acc.mw - acc.mb - (l.map (sqCap b)).sum
        ≤ (l.foldl (evalStep phaseInc b) acc).mw - (l.foldl (evalStep phaseInc b) acc).mb)
    ∧ ((l.foldl (evalStep phaseInc b) acc).ew - (l.foldl (evalStep phaseInc b) acc).eb
        ≤ acc.ew - acc.eb + (l.map (sqCap b)).sum
      ∧ acc.ew - acc.eb - (l.map (sqCap b)).sum
        ≤ (l.foldl (evalStep phaseInc b) acc).ew - (l.foldl (evalStep phaseInc b) acc).eb)
    ∧ acc.game_phase ≤ (l.foldl (evalStep phaseInc b) acc).game_phase := by
  intro l
  induction l with
  | nil => intro acc; simp
  | cons a t ih =>
    intro acc
    have H := ih (evalStep phaseInc b acc a)
    have hph : ∀ pt, 0 ≤ phaseInc pt := by intro pt; cases pt <;> decide
    simp only [List.foldl_cons, List.map_cons, List.sum_cons]
    rcases hp : b.pieceAt a with _ | ⟨pt, c⟩
    · have hstep : evalStep phaseInc b acc a = acc := by simp [evalStep, hp]
      have hcap : sqCap b a = 0 := by simp [sqCap, hp]
      rw [hstep] at H
      rw [hstep, hcap]
      obtain ⟨⟨h1, h2⟩, ⟨h3, h4⟩, h5⟩ := H
      exact ⟨⟨by omega, by omega⟩, ⟨by omega, by omega⟩, by omega⟩
    · obtain ⟨⟨hm1, hm2⟩, ⟨he1, he2⟩⟩ := contrib_bound pt c a.val
      have hcap : sqCap b a = pieceCap pt := by simp [sqCap, hp]
      have hph' : 0 ≤ phaseInc pt := hph pt
      cases c
      · have hmw : (evalStep phaseInc b acc a).mw = acc.mw := by simp [evalStep, hp]
        have hew : (evalStep phaseInc b acc a).ew = acc.ew := by simp [evalStep, hp]
        have hmb : (evalStep phaseInc b acc a).mb =
            acc.mb + MID_GAME_CHESS_PIECE_VALUES pt + (midTable pt false).getD a.val 0 := by
          simp [evalStep, hp]
        have heb : (evalStep phaseInc b acc a).eb =
            acc.eb + END_GAME_CHESS_PIECE_VALUES pt + (endTable pt false).getD a.val 0 := by
          simp [evalStep, hp]
        have hgp : (evalStep phaseInc b acc a).game_phase =
            acc.game_phase + phaseInc pt := by
          simp [evalStep, hp]
        rw [hmw, hew, hmb, heb, hgp] at H
        rw [hcap]
        obtain ⟨⟨h1, h2⟩, ⟨h3, h4⟩, h5⟩ := H
        exact ⟨⟨by omega, by omega⟩, ⟨by omega, by omega⟩, by omega⟩
      · have hmb : (evalStep phaseInc b acc a).mb = acc.mb := by simp [evalStep, hp]
        have heb : (evalStep phaseInc b acc a).eb = acc.eb := by simp [evalStep, hp]
        have hmw : (evalStep phaseInc b acc a).mw =
            acc.mw + MID_GAME_CHESS_PIECE_VALUES pt + (midTable pt true).getD a.val 0 := by
          simp [evalStep, hp]
        have hew : (evalStep phaseInc b acc a).ew =
            acc.ew + END_GAME_CHESS_PIECE_VALUES pt + (endTable pt true).getD a.val 0 := by
          simp [evalStep, hp]
        have hgp : (evalStep phaseInc b acc a).game_phase =
            acc.game_phase + phaseInc pt := by
          simp [evalStep, hp]
        rw [hmw, hew, hmb, heb, hgp] at H
        rw [hcap]
        obtain ⟨⟨h1, h2⟩, ⟨h3, h4⟩, h5⟩ := H
        exact ⟨⟨by omega, by omega⟩, ⟨by omega, by omega⟩, by omega⟩

/-- C9, amended: on every non-terminal board with at most two kings (in
particular every legal chess position) the score stays strictly inside the
sentinels: the taper multiplies two white−black differences, each bounded by
62·1225 + 2·100199 ≤ 276348, by phase weights summing to 24, so
|score| ≤ 24 · 276348 = 6632352 < 9999999. -/
theorem c9_sentinel_bound (b : BoardE)
    (hcm : b.is_checkmate = false) (hst : b.is_stalemate = false)
    (him : b.is_insufficient_material = false)
    (hk : kingsIn b (List.finRange 64) ≤ 2) :
    -9999999 < heuristic b ∧ heuristic b < 9999999 := by
  have hsum := capSum_le b (List.finRange 64)
  have hfb := eval_fold_bound b (List.finRange 64) ⟨0, 0, 0, 0, 0⟩
  have hlen : ((List.finRange 64).length : Int) = 64 := by simp
  have hkz : ((kingsIn b (List.finRange 64) : Nat) : Int) ≤ 2 := by exact_mod_cast hk
  have heq : heuristic b = heuristicCore phaseInc b := by
    simp [heuristic, hcm, hst, him]
  rw [heq]
  simp only [heuristicCore]
  obtain ⟨⟨h1, h2⟩, ⟨h3, h4⟩, h5⟩ := hfb
  have e1 : (⟨0, 0, 0, 0, 0⟩ : EvalAcc).game_phase = 0 := rfl
  have e2 : (⟨0, 0, 0, 0, 0⟩ : EvalAcc).mw = 0 := rfl
  have e3 : (⟨0, 0, 0, 0, 0⟩ : EvalAcc).ew = 0 := rfl
  have e4 : (⟨0, 0, 0, 0, 0⟩ : EvalAcc).mb = 0 := rfl
  have e5 : (⟨0, 0, 0, 0, 0⟩ : EvalAcc).eb = 0 := rfl
  simp only [e1, e2, e3, e4, e5] at h1 h2 h3 h4 h5
  set acc := (List.finRange 64).foldl (evalStep phaseInc b) ⟨0, 0, 0, 0, 0⟩ with hacc
  have hS : ((List.finRange 64).map (sqCap b)).sum ≤ 276348 := by omega
  have hmU : acc.mw - acc.mb ≤ 276348 := by omega
  have hmL : -276348 ≤ acc.mw - acc.mb := by omega
  have heU : acc.ew - acc.eb ≤ 276348 := by omega
  have heL : -276348 ≤ acc.ew - acc.eb := by omega
  have hp0 : 0 ≤ acc.game_phase := by omega
  set p := (if acc.game_phase > 24 then (24 : Int) else acc.game_phase) with hpdef
  have hpr : 0 ≤ p ∧ p ≤ 24 := by
    rw [hpdef]; split <;> omega
  have hq : (0 : Int) ≤ 24 - p := by omega
  have u1 : (acc.mw - acc.mb) * p ≤ 276348 * p :=
    mul_le_mul_of_nonneg_right hmU hpr.1
  have u2 : (-276348) * p ≤ (acc.mw - acc.mb) * p :=
    mul_le_mul_of_nonneg_right hmL hpr.1
  have u3 : (acc.ew - acc.eb) * (24 - p) ≤ 276348 * (24 - p) :=
    mul_le_mul_of_nonneg_right heU hq
  have u4 : (-276348) * (24 - p) ≤ (acc.ew - acc.eb) * (24 - p) :=
    mul_le_mul_of_nonneg_right heL hq
  constructor <;> nlinarith [hpr.1, hpr.2, u1, u2, u3, u4]

/-- The empty board: no pieces, no terminal flags. -/
def emptyB : BoardE where
  pieceAt := fun _ => none
  turn := true
  is_checkmate := false
  winner := none
  is_stalemate := false
  is_insufficient_material := false

/-- Witness for `c9_sentinel_bound` at the empty board. -/
theorem c9_sentinel_bound_witness :
    -9999999 < heuristic emptyB ∧ heuristic emptyB < 9999999 :=
  c9_sentinel_bound emptyB rfl rfl rfl (by decide)

/-! ## TimeAllocator (`computation_time`, claims C6 and C7)

`chess.engine.Limit` carries optional clocks and increments; the branches the
claims are about read the clocks whenever the side to move has a defined
increment, so clocks are modelled as total and increments as `Option`.
Times are Python floats; they are modelled as exact rationals, which is
faithful for the comparisons and the linear arithmetic at issue here. -/

structure Lim where
  white_clock : ℚ
  black_clock : ℚ
  white_inc : Option ℚ
  black_inc : Option ℚ

/-- `IterativeDeepening.computation_time` (the `board.turn` argument is
passed as `turn : Bool`, `true = chess.WHITE`). -/
def computation_time (turn : Bool) (tl : Lim) : ℚ :=
  if turn then
    match tl.white_inc with
    | some wi =>
      if wi = 0 then
        if tl.white_clock > tl.black_clock then tl.white_clock - tl.black_clock
        else 1
      else
        if tl.white_clock > tl.black_clock then
          (tl.white_clock - tl.black_clock) / 4 + wi
        else wi
    | none => 20
  else
    match tl.black_inc with
    | some bi =>
      if bi = 0 then
        if tl.black_clock > tl.white_clock then tl.black_clock - tl.white_clock
        else 1
      else
        if tl.black_clock > tl.white_clock then
          (tl.black_clock - tl.white_clock) / 4 + bi
        else bi
    | none => 20

/-- Modelled from the spec (claim C7): the allocation rule in the claim's own
words, written side-relatively — increment zero and ahead: the clock lead;
increment zero and not ahead: the 1-second fallback; increment nonzero and
ahead: increment plus a quarter of the lead; increment nonzero and not
ahead: the increment; no increment defined for the side to move: the fixed
20-second default. -/
def computationTimeSpec (turn : Bool) (tl : Lim) : ℚ :=
  let own := if turn then tl.white_clock else tl.black_clock
  let opp := if turn then tl.black_clock else tl.white_clock
  match (if turn then tl.white_inc else tl.black_inc) with
  | some inc =>
    if inc = 0 then
      if own > opp then own - opp else 1
    else
      if own > opp then inc + (own - opp) / 4 else inc
  | none => 20

/-- C7: `computation_time` reproduces the stated allocation rule exactly, for
both sides to move and all clock/increment configurations. -/
theorem c7_computation_time_rule (turn : Bool) (tl : Lim) :
    computation_time turn tl = computationTimeSpec turn tl := by
  cases turn <;>
    simp only [computation_time, computationTimeSpec, if_true, if_false, Bool.false_eq_true,
      reduceIte]
  · cases tl.black_inc with
    | none => rfl
    | some bi =>
      by_cases h0 : bi = 0 <;> by_cases hcl : tl.black_clock > tl.white_clock <;>
        simp [h0, hcl] <;> ring
  · cases tl.white_inc with
    | none => rfl
    | some wi =>
      by_cases h0 : wi = 0 <;> by_cases hcl : tl.white_clock > tl.black_clock <;>
        simp [h0, hcl] <;> ring

/-- C6 counterexample: with increment 0, a clock lead of half a second yields
a budget of 1/2 s, while a lead of zero yields the 1 s fallback: the larger
lead gets the strictly smaller budget, so the budget is not monotone in the
lead. -/
theorem c6_not_monotone :
    (21 / 2 - 10 : ℚ) > 10 - 10
    ∧ computation_time true { white_clock := 21 / 2, black_clock := 10,
                              white_inc := some 0, black_inc := some 0 }
      < computation_time true { white_clock := 10, black_clock := 10,
                                white_inc := some 0, black_inc := some 0 } := by
  refine ⟨by norm_num, ?_⟩
  norm_num [computation_time]

/-- C6, amended: with increment 0 for the side to move, the budget is
non-decreasing in the clock lead as long as neither compared lead lies
strictly between 0 and 1 second (for leads in (0,1) the budget dips below the
1-second floor, which is the only failure of monotonicity), and the budget is
exactly the 1-second fallback when not ahead. -/
theorem c6_monotone_amended (turn : Bool) (tl₁ tl₂ : Lim)
    (hinc₁ : (if turn then tl₁.white_inc else tl₁.black_inc) = some 0)
    (hinc₂ : (if turn then tl₂.white_inc else tl₂.black_inc) = some 0)
    (lead₁ lead₂ : ℚ)
    (hl₁ : lead₁ = (if turn then tl₁.white_clock - tl₁.black_clock
                    else tl₁.black_clock - tl₁.white_clock))
    (hl₂ : lead₂ = (if turn then tl₂.white_clock - tl₂.black_clock
                    else tl₂.black_clock - tl₂.white_clock))
    (h₁ : lead₁ ≤ 0 ∨ 1 ≤ lead₁) (h₂ : lead₂ ≤ 0 ∨ 1 ≤ lead₂)
    (hle : lead₁ ≤ lead₂) :
    computation_time turn tl₁ ≤ computation_time turn tl₂
    ∧ (lead₁ ≤ 0 → computation_time turn tl₁ = 1) := by
  cases turn <;>
    simp only [if_true, if_false, Bool.false_eq_true, reduceIte] at hinc₁ hinc₂ hl₁ hl₂ <;>
    simp only [computation_time, hinc₁, hinc₂, if_true, if_false, Bool.false_eq_true,
      reduceIte] <;>
    subst hl₁ hl₂ <;>
    constructor
  · rcases h₁ with h | h <;> rcases h₂ with h' | h' <;> split <;> split <;> linarith
  · intro hle0
    split <;> [linarith; rfl]
  · rcases h₁ with h | h <;> rcases h₂ with h' | h' <;> split <;> split <;> linarith
  · intro hle0
    split <;> [linarith; rfl]

/-- Witness for `c6_monotone_amended` at concrete limits (leads 0 and 5). -/
theorem c6_monotone_amended_witness :
    computation_time true { white_clock := 10, black_clock := 10,
                            white_inc := some 0, black_inc := some 0 }
      ≤ computation_time true { white_clock := 15, black_clock := 10,
                                white_inc := some 0, black_inc := some 0 }
    ∧ computation_time true { white_clock := 10, black_clock := 10,
                              white_inc := some 0, black_inc := some 0 } = 1 := by
  have h := c6_monotone_amended true
    { white_clock := 10, black_clock := 10, white_inc := some 0, black_inc := some 0 }
    { white_clock := 15, black_clock := 10, white_inc := some 0, black_inc := some 0 }
    rfl rfl 0 5 (by norm_num) (by norm_num)
    (Or.inl le_rfl) (Or.inr (by norm_num)) (by norm_num)
  exact ⟨h.1, h.2 le_rfl⟩

/-! ## The search model (claims C2, C3, C4, C5, C10)

The rules engine presents a position as an abstract game tree: the static
evaluation at the node (what `heuristic` returns there), the
`board.is_game_over()` flag, and the legal moves with the positions they
lead to.  Moves are opaque identifiers.  The mutable `chess.Board` is the
current node plus the stack of positions `push` has saved; the instance
attributes `self.timeout` / `self.move` become explicit state.  The
asynchronous timer is modelled by counting flag polls: `limit = some k`
means the `k`-th poll (and every later one) observes the flag set, and
quantifying over `limit` covers every possible firing time, including
`none` (never fires). -/

inductive GTree where
  | node (hval : Int) (gameOver : Bool) (children : List (Nat × GTree))

def GTree.hval : GTree → Int
  | node h _ _ => h

def GTree.gameOver : GTree → Bool
  | node _ g _ => g

def GTree.children : GTree → List (Nat × GTree)
  | node _ _ c => c

/-- Search errors: `timeout` is the `TimeoutError` raised on cancellation;
`value` is the `ValueError` that `list.remove` raises when the element is
absent; `stack` is `board.pop()` on an empty move stack; `index` is
`list[0]` on an empty list. -/
inductive SErr where
  | timeout
  | value
  | stack
  | index
deriving DecidableEq

structure St where
  board : GTree
  parents : List GTree
  clock : Nat
  limit : Option Nat

def tick (s : St) : St := { s with clock := s.clock + 1 }

/-- The value of `self.timeout` observed by the `s.clock`-th poll. -/
def fired (s : St) : Bool :=
  match s.limit with
  | none => false
  | some k => decide (k ≤ s.clock)

/-- `board.push(move)`: replace the current position by the child the move
leads to, saving the old position on the move stack. -/
def pushSt (s : St) (c : GTree) : St :=
  { s with board := c, parents := s.board :: s.parents }

/-- `board.pop()`: restore the saved position; `none` models the error of
popping an empty move stack (unreachable on balanced paths). -/
def popSt (s : St) : Option St :=
  match s.parents with
  | [] => none
  | p :: ps => some { s with board := p, parents := ps }

/-- The leaf value of `alphabeta`: `heuristic(board) - depth` when
maximizing, `+ depth` when minimizing. -/
def leafVal (t : GTree) (d : Nat) (mx : Bool) : Int :=
  if mx then t.hval - d else t.hval + d

/-- The maximizing move loop of `alphabeta` at depth `d+1`: push, recurse
with the current `alpha` (the recursive call is supplied as `rec` so that
`alphabeta` recurses structurally on the depth), fold the running max, pop,
beta cutoff `max_value > beta`, then `alpha = max(alpha, max_value)`. -/
def abLoopMax (rec : St → Int → Except (SErr × St) (Int × St)) (b : Int) :
    List (Nat × GTree) → Int → Int → St → Except (SErr × St) (Int × St)
  | [], m, _, s => .ok (m, s)
  | (_, c) :: rest, m, a, s =>
    match rec (pushSt s c) a with
    | .error e => .error e
    | .ok (r, s₂) =>
      let m' := max m r
      match popSt s₂ with
      | none => .error (.stack, s₂)
      | some s₃ =>
        if m' > b then .ok (m', s₃)
        else abLoopMax rec b rest m' (max a m') s₃

/-- The minimizing move loop of `alphabeta`: alpha cutoff `min_value <
alpha`, then `beta = min(beta, min_value)`. -/
def abLoopMin (rec : St → Int → Except (SErr × St) (Int × St)) (a : Int) :
    List (Nat × GTree) → Int → Int → St → Except (SErr × St) (Int × St)
  | [], m, _, s => .ok (m, s)
  | (_, c) :: rest, m, bb, s =>
    match rec (pushSt s c) bb with
    | .error e => .error e
    | .ok (r, s₂) =>
      let m' := min m r
      match popSt s₂ with
      | none => .error (.stack, s₂)
      | some s₃ =>
        if m' < a then .ok (m', s₃)
        else abLoopMin rec a rest m' (min bb m') s₃

/-- `IterativeDeepening.alphabeta`.  First action on every call: poll the
cancellation flag and raise `TimeoutError` when it is set; then the leaf
case `depth == 0 or board.is_game_over()` (note `decide` calls this with the
undecremented depth, so internal nodes pass `depth - 1`); otherwise the
pruned move loop of the maximizing or minimizing player. -/
def alphabeta (s : St) (d : Nat) (a b : Int) (mx : Bool) :
    Except (SErr × St) (Int × St) :=
  let s₁ := tick s
  if fired s₁ then .error (.timeout, s₁)
  else
    match d with
    | 0 => .ok (leafVal s₁.board 0 mx, s₁)
    | d' + 1 =>
      if s₁.board.gameOver then .ok (leafVal s₁.board (d' + 1) mx, s₁)
      else if mx then
        abLoopMax (fun s' a' => alphabeta s' d' a' b false) b
          s₁.board.children (-99999999) a s₁
      else
        abLoopMin (fun s' b' => alphabeta s' d' a b' true) a
          s₁.board.children 99999999 b s₁

/-- `chess.engine.PlayResult` restricted to the field the engine uses. -/
structure PlayResult where
  move : Option Nat
deriving DecidableEq

/-- The white (maximizing) root loop of `decide`: like `abLoopMax` but
calling `alphabeta` at the full depth `d`, recording the best move with the
`value > max_value or max_move == None` rule, with beta fixed at the initial
99999999. -/
def decideLoopW (d : Nat) :
    List (Nat × GTree) → Int → Option Nat → Int → St →
      Except (SErr × St) ((Option Nat × Int) × St)
  | [], m, best, _, s => .ok ((best, m), s)
  | (mv, c) :: rest, m, best, a, s =>
    match alphabeta (pushSt s c) d a 99999999 false with
    | .error e => .error e
    | .ok (r, s₂) =>
      let p := if r > m ∨ best = none then (some mv, r) else (best, m)
      match popSt s₂ with
      | none => .error (.stack, s₂)
      | some s₃ =>
        if p.2 > 99999999 then .ok (p, s₃)
        else decideLoopW d rest p.2 p.1 (max a p.2) s₃

/-- The black (minimizing) root loop of `decide`, alpha fixed at the initial
-99999999. -/
def decideLoopB (d : Nat) :
    List (Nat × GTree) → Int → Option Nat → Int → St →
      Except (SErr × St) ((Option Nat × Int) × St)
  | [], m, best, _, s => .ok ((best, m), s)
  | (mv, c) :: rest, m, best, bb, s =>
    match alphabeta (pushSt s c) d (-99999999) bb true with
    | .error e => .error e
    | .ok (r, s₂) =>
      let p := if r < m ∨ best = none then (some mv, r) else (best, m)
      match popSt s₂ with
      | none => .error (.stack, s₂)
      | some s₃ =>
        if p.2 < -99999999 then .ok (p, s₃)
        else decideLoopB d rest p.2 p.1 (min bb p.2) s₃

/-- `sort_initial_moves(board, move)` pushes the move, evaluates, pops; the
pair is balanced and raises nothing, so it reads the child's static value. -/
def sortKey (p : Nat × GTree) : Int := p.2.hval

/-- Stable insertion, modelling Python's stable
`list.sort(reverse=False, key=sort_initial_moves_partial)`. -/
def insortMoves (p : Nat × GTree) : List (Nat × GTree) → List (Nat × GTree)
  | [] => [p]
  | q :: rest =>
    if sortKey p ≤ sortKey q then p :: q :: rest else q :: insortMoves p rest

def sortMoves : List (Nat × GTree) → List (Nat × GTree)
  | [] => []
  | p :: rest => insortMoves p (sortMoves rest)

/-- `legal_moves.remove(x)` keeping hold of the removed entry: `none` when no
entry's move equals `x`, in which case Python raises `ValueError`. -/
def removeFirst : List (Nat × GTree) → Nat → Option ((Nat × GTree) × List (Nat × GTree))
  | [], _ => none
  | p :: rest, x =>
    if p.1 = x then some (p, rest)
    else (removeFirst rest x).map (fun q => (q.1, p :: q.2))

/-- `legal_moves.remove(self.move.move); legal_moves.insert(0, ...)`: move
the entry of the recorded best move to the front.  When the recorded
`PlayResult` has `move = None`, or the move is not in the list, `list.remove`
raises `ValueError`. -/
def frontload (l : List (Nat × GTree)) (prev : Option PlayResult) :
    Except SErr (List (Nat × GTree)) :=
  match prev with
  | none => .ok l
  | some r =>
    match r.move with
    | none => .error .value
    | some x =>
      match removeFirst l x with
      | none => .error .value
      | some (q, rest) => .ok (q :: rest)

/-- `IterativeDeepening.decide`: `random.shuffle` is modelled by taking the
shuffled legal-move list as the `shuffled` argument (theorems quantify over
it, covering every permutation); then the stable sort by the one-ply
heuristic, the front-loading of the previous iteration's best move, and the
pruned root loop with the initial window (-99999999, 99999999), wrapping the
chosen move in a `PlayResult`. -/
def decideRun (s : St) (prev : Option PlayResult) (shuffled : List (Nat × GTree))
    (d : Nat) (turn : Bool) : Except (SErr × St) (PlayResult × St) :=
  match frontload (sortMoves shuffled) prev with
  | .error e => .error (e, s)
  | .ok ordered =>
    match (if turn then decideLoopW d ordered (-99999999) none (-99999999) s
           else decideLoopB d ordered 99999999 none 99999999 s) with
    | .error e => .error e
    | .ok ((mv, _), s') => .ok (⟨mv⟩, s')

inductive SearchOutcome where
  | finished (prev : Option PlayResult) (s : St)
  | failed (e : SErr) (prev : Option PlayResult) (s : St)

/-- The `for i in range(1, 100)` loop of `search`: `prev` is the loop-carried
`self.move`, `fuel` the remaining iterations (99 initially), `d` the current
depth, and `sh d` the shuffled legal-move list `decide` receives at depth `d`
(the root position is restored between completed iterations). -/
def searchGo (sh : Nat → List (Nat × GTree)) (turn : Bool) :
    Nat → St → Option PlayResult → Nat → SearchOutcome
  | 0, s, prev, _ => .finished prev s
  | fuel + 1, s, prev, d =>
    match decideRun s prev (sh d) d turn with
    | .ok (res, s') => searchGo sh turn fuel s' (some res) (d + 1)
    | .error (e, sE) => .failed e prev sE

/-- `IterativeDeepening.search`: snapshot the original board (`deepcopy`),
run the deepening loop, and catch `TimeoutError` only — returning the
recorded best move, or `list(original_board.legal_moves)[0]` when none was
recorded (an `IndexError` if the snapshot has no legal moves); every other
error propagates uncaught. -/
def searchRun (sh : Nat → List (Nat × GTree)) (turn : Bool) (s : St) :
    Except (SErr × St) (Option PlayResult × St) :=
  match searchGo sh turn 99 s none 1 with
  | .finished prev s' => .ok (prev, s')
  | .failed .timeout prev sE =>
    match prev with
    | some r => .ok (some r, sE)
    | none =>
      match s.board.children with
      | [] => .error (.index, sE)
      | (mv, _) :: _ => .ok (some ⟨some mv⟩, sE)
  | .failed e _ sE => .error (e, sE)

/-! ### Pure (no-cancellation) projections and the spec-side minimax -/

/-- Pure projection of `abLoopMax` (proved to agree on completed runs). -/
def abLoopMaxP (f : GTree → Int → Int) (b : Int) :
    List (Nat × GTree) → Int → Int → Int
  | [], m, _ => m
  | (_, c) :: rest, m, a =>
    let m' := max m (f c a)
    if m' > b then m' else abLoopMaxP f b rest m' (max a m')

/-- Pure projection of `abLoopMin`. -/
def abLoopMinP (f : GTree → Int → Int) (a : Int) :
    List (Nat × GTree) → Int → Int → Int
  | [], m, _ => m
  | (_, c) :: rest, m, bb =>
    let m' := min m (f c bb)
    if m' < a then m' else abLoopMinP f a rest m' (min bb m')

/-- The value `alphabeta` computes on a run that completes without
cancellation (`alphabeta_ok` below proves the agreement). -/
def alphabetaP (d : Nat) (t : GTree) (a b : Int) (mx : Bool) : Int :=
  match d with
  | 0 => leafVal t 0 mx
  | d' + 1 =>
    if t.gameOver then leafVal t (d' + 1) mx
    else if mx then
      abLoopMaxP (fun c a' => alphabetaP d' c a' b false) b t.children (-99999999) a
    else
      abLoopMinP (fun c b' => alphabetaP d' c a b' true) a t.children 99999999 b

def foldMaxMM (f : GTree → Int) : List (Nat × GTree) → Int → Int
  | [], m => m
  | (_, c) :: rest, m => foldMaxMM f rest (max m (f c))

def foldMinMM (f : GTree → Int) : List (Nat × GTree) → Int → Int
  | [], m => m
  | (_, c) :: rest, m => foldMinMM f rest (min m (f c))

/-- Modelled from the spec (claim C2): exhaustive minimax over the same tree
with no pruning — the same recursion and leaf values with the alpha-beta
window ignored and the cutoffs removed. -/
def mmVal (d : Nat) (t : GTree) (mx : Bool) : Int :=
  match d with
  | 0 => leafVal t 0 mx
  | d' + 1 =>
    if t.gameOver then leafVal t (d' + 1) mx
    else if mx then foldMaxMM (fun c => mmVal d' c false) t.children (-99999999)
    else foldMinMM (fun c => mmVal d' c true) t.children 99999999

/-- Modelled from the spec (claim C2): the exhaustive white root loop — the
`decide` loop with the pruning machinery removed and every child scored by
full minimax. -/
def rootMMW (d : Nat) : List (Nat × GTree) → Int → Option Nat → Option Nat × Int
  | [], m, best => (best, m)
  | (mv, c) :: rest, m, best =>
    if mmVal d c false > m ∨ best = none then rootMMW d rest (mmVal d c false) (some mv)
    else rootMMW d rest m best

/-- Modelled from the spec (claim C2): the exhaustive black root loop. -/
def rootMMB (d : Nat) : List (Nat × GTree) → Int → Option Nat → Option Nat × Int
  | [], m, best => (best, m)
  | (mv, c) :: rest, m, best =>
    if mmVal d c true < m ∨ best = none then rootMMB d rest (mmVal d c true) (some mv)
    else rootMMB d rest m best

/-- Modelled from the spec (claim C2): the exhaustive root search. -/
def rootMM (l : List (Nat × GTree)) (d : Nat) (turn : Bool) : Option Nat × Int :=
  if turn then rootMMW d l (-99999999) none else rootMMB d l 99999999 none

/-- Pure projection of the white root loop of `decide` (the two branches of
the `value > max_value or max_move == None` update are unfolded). -/
def decideLoopWP (d : Nat) :
    List (Nat × GTree) → Int → Option Nat → Int → Option Nat × Int
  | [], m, best, _ => (best, m)
  | (mv, c) :: rest, m, best, a =>
    if alphabetaP d c a 99999999 false > m ∨ best = none then
      if alphabetaP d c a 99999999 false > 99999999 then
        (some mv, alphabetaP d c a 99999999 false)
      else
        decideLoopWP d rest (alphabetaP d c a 99999999 false) (some mv)
          (max a (alphabetaP d c a 99999999 false))
    else
      if m > 99999999 then (best, m)
      else decideLoopWP d rest m best (max a m)

/-- Pure projection of the black root loop of `decide`. -/
def decideLoopBP (d : Nat) :
    List (Nat × GTree) → Int → Option Nat → Int → Option Nat × Int
  | [], m, best, _ => (best, m)
  | (mv, c) :: rest, m, best, bb =>
    if alphabetaP d c (-99999999) bb true < m ∨ best = none then
      if alphabetaP d c (-99999999) bb true < -99999999 then
        (some mv, alphabetaP d c (-99999999) bb true)
      else
        decideLoopBP d rest (alphabetaP d c (-99999999) bb true) (some mv)
          (min bb (alphabetaP d c (-99999999) bb true))
    else
      if m < -99999999 then (best, m)
      else decideLoopBP d rest m best (min bb m)

/-- Every heuristic value in the tree lies within the sentinels — true of
every tree the real evaluator labels on legal positions
(`c9_sentinel_bound`), and the hypothesis under which the alpha-beta window
(-99999999, 99999999) is effectively infinite. -/
inductive Bounded : GTree → Prop where
  | mk (h : Int) (g : Bool) (cs : List (Nat × GTree)) :
      -9999999 ≤ h → h ≤ 9999999 → (∀ p ∈ cs, Bounded p.2) →
      Bounded (.node h g cs)

/-! ### Completed runs: stack preservation and agreement with the pure value -/

theorem abLoopMax_ok (f : GTree → Int → Int)
    (rec : St → Int → Except (SErr × St) (Int × St)) (b : Int)
    (hrec : ∀ s a v s', rec s a = .ok (v, s') →
      s'.board = s.board ∧ s'.parents = s.parents ∧ v = f s.board a) :
    ∀ (l : List (Nat × GTree)) (m a : Int) (s : St) (v : Int) (s' : St),
      abLoopMax rec b l m a s = .ok (v, s') →
      s'.board = s.board ∧ s'.parents = s.parents ∧ v = abLoopMaxP f b l m a := by
  intro l
  induction l with
  | nil =>
    intro m a s v s' h
    simp only [abLoopMax, Except.ok.injEq, Prod.mk.injEq] at h
    obtain ⟨hv, hs⟩ := h
    subst hv
    subst hs
    exact ⟨rfl, rfl, rfl⟩
  | cons p rest ih =>
    intro m a s v s' h
    obtain ⟨mv, c⟩ := p
    rw [abLoopMax] at h
    split at h
    · exact absurd h (by simp)
    · rename_i r s₂ heq
      obtain ⟨hb2, hp2, hv2⟩ := hrec (pushSt s c) a r s₂ heq
      have hp2' : s₂.parents = s.board :: s.parents := hp2
      subst hv2
      split at h
      · rename_i heqp
        rw [popSt, hp2'] at heqp
        exact absurd heqp (by simp)
      · rename_i s₃ heqp
        rw [popSt, hp2'] at heqp
        have hs₃ : s₃ = { s₂ with board := s.board, parents := s.parents } :=
          (Option.some.injEq _ _ ▸ heqp).symm
        subst hs₃
        rw [abLoopMaxP]
        have hfc : f (pushSt s c).board a = f c a := rfl
        rw [hfc] at h
        by_cases hcut : m ⊔ f c a > b
        · simp only [if_pos hcut, Except.ok.injEq, Prod.mk.injEq] at h
          obtain ⟨hv, hs⟩ := h
          subst hs
          simp only [if_pos hcut]
          refine ⟨by first | rfl | trivial, by first | rfl | trivial, ?_⟩
          first | exact hv.symm | exact hv | simp [hv] | simp [hv.symm]
        · simp only [if_neg hcut] at h
          obtain ⟨hb3, hp3, hv3⟩ := ih _ _ _ _ _ h
          simp only [if_neg hcut]
          exact ⟨hb3, hp3, hv3⟩

theorem abLoopMin_ok (f : GTree → Int → Int)
    (rec : St → Int → Except (SErr × St) (Int × St)) (a : Int)
    (hrec : ∀ s bb v s', rec s bb = .ok (v, s') →
      s'.board = s.board ∧ s'.parents = s.parents ∧ v = f s.board bb) :
    ∀ (l : List (Nat × GTree)) (m bb : Int) (s : St) (v : Int) (s' : St),
      abLoopMin rec a l m bb s = .ok (v, s') →
      s'.board = s.board ∧ s'.parents = s.parents ∧ v = abLoopMinP f a l m bb := by
  intro l
  induction l with
  | nil =>
    intro m bb s v s' h
    simp only [abLoopMin, Except.ok.injEq, Prod.mk.injEq] at h
    obtain ⟨hv, hs⟩ := h
    subst hv
    subst hs
    exact ⟨rfl, rfl, rfl⟩
  | cons p rest ih =>
    intro m bb s v s' h
    obtain ⟨mv, c⟩ := p
    rw [abLoopMin] at h
    split at h
    · exact absurd h (by simp)
    · rename_i r s₂ heq
      obtain ⟨hb2, hp2, hv2⟩ := hrec (pushSt s c) bb r s₂ heq
      have hp2' : s₂.parents = s.board :: s.parents := hp2
      subst hv2
      split at h
      · rename_i heqp
        rw [popSt, hp2'] at heqp
        exact absurd heqp (by simp)
      · rename_i s₃ heqp
        rw [popSt, hp2'] at heqp
        have hs₃ : s₃ = { s₂ with board := s.board, parents := s.parents } :=
          (Option.some.injEq _ _ ▸ heqp).symm
        subst hs₃
        rw [abLoopMinP]
        have hfc : f (pushSt s c).board bb = f c bb := rfl
        rw [hfc] at h
        by_cases hcut : m ⊓ f c bb < a
        · simp only [if_pos hcut, Except.ok.injEq, Prod.mk.injEq] at h
          obtain ⟨hv, hs⟩ := h
          subst hs
          simp only [if_pos hcut]
          refine ⟨by first | rfl | trivial, by first | rfl | trivial, ?_⟩
          first | exact hv.symm | exact hv | simp [hv] | simp [hv.symm]
        · simp only [if_neg hcut] at h
          obtain ⟨hb3, hp3, hv3⟩ := ih _ _ _ _ _ h
          simp only [if_neg hcut]
          exact ⟨hb3, hp3, hv3⟩

/-- A completed (non-cancelled) `alphabeta` call restores the board exactly
and returns the pure value `alphabetaP` of the entry position. -/
theorem alphabeta_ok : ∀ (d : Nat) (s : St) (a b : Int) (mx : Bool) (v : Int) (s' : St),
    alphabeta s d a b mx = .ok (v, s') →
    s'.board = s.board ∧ s'.parents = s.parents ∧ v = alphabetaP d s.board a b mx := by
  intro d
  induction d with
  | zero =>
    intro s a b mx v s' h
    simp only [alphabeta] at h
    split at h
    · exact absurd h (by simp)
    · simp only [Except.ok.injEq, Prod.mk.injEq] at h
      obtain ⟨hv, hs⟩ := h
      subst hs
      refine ⟨by first | rfl | trivial, by first | rfl | trivial, ?_⟩
      first | exact hv.symm | exact hv | simp [alphabetaP, hv.symm] | simp [alphabetaP, hv]
  | succ d' ih =>
    intro s a b mx v s' h
    simp only [alphabeta] at h
    split at h
    · exact absurd h (by simp)
    · rename_i hf
      have htb : (tick s).board = s.board := rfl
      rw [htb] at h
      split at h
      · rename_i hg
        simp only [Except.ok.injEq, Prod.mk.injEq] at h
        obtain ⟨hv, hs⟩ := h
        subst hs
        rw [alphabetaP]
        simp only [hg, if_true]
        refine ⟨by first | rfl | trivial, by first | rfl | trivial, ?_⟩
        first | exact hv.symm | exact hv | simp [hv.symm] | simp [hv]
      · rename_i hg
        have hg' : s.board.gameOver = false := by
          revert hg
          cases s.board.gameOver <;> simp
        cases mx with
        | false =>
          simp only [Bool.false_eq_true, if_false] at h
          obtain ⟨hb3, hp3, hv3⟩ := abLoopMin_ok (fun c b' => alphabetaP d' c a b' true)
            (fun s'' b' => alphabeta s'' d' a b' true) a
            (fun s'' b' v'' s''' hh => ih s'' a b' true v'' s''' hh)
            s.board.children 99999999 b (tick s) v s' h
          refine ⟨hb3, hp3, ?_⟩
          rw [hv3, alphabetaP]
          simp only [hg', Bool.false_eq_true, if_false]
        | true =>
          simp only [if_true] at h
          obtain ⟨hb3, hp3, hv3⟩ := abLoopMax_ok (fun c a' => alphabetaP d' c a' b false)
            (fun s'' a' => alphabeta s'' d' a' b false) b
            (fun s'' a' v'' s''' hh => ih s'' a' b false v'' s''' hh)
            s.board.children (-99999999) a (tick s) v s' h
          refine ⟨hb3, hp3, ?_⟩
          rw [hv3, alphabetaP]
          simp only [hg', Bool.false_eq_true, if_false, if_true]

theorem decideLoopW_ok (d : Nat) :
    ∀ (l : List (Nat × GTree)) (m : Int) (best : Option Nat) (a : Int) (s : St)
      (q : Option Nat × Int) (s' : St),
      decideLoopW d l m best a s = .ok (q, s') →
      s'.board = s.board ∧ s'.parents = s.parents ∧ q = decideLoopWP d l m best a := by
  intro l
  induction l with
  | nil =>
    intro m best a s q s' h
    simp only [decideLoopW, Except.ok.injEq, Prod.mk.injEq] at h
    obtain ⟨hq, hs⟩ := h
    subst hs
    refine ⟨by first | rfl | trivial, by first | rfl | trivial, ?_⟩
    first | exact hq.symm | exact hq | simp [decideLoopWP, hq.symm] | simp [decideLoopWP, hq]
  | cons p rest ih =>
    intro m best a s q s' h
    obtain ⟨mv, c⟩ := p
    rw [decideLoopW] at h
    split at h
    · exact absurd h (by simp)
    · rename_i r s₂ heq
      obtain ⟨hb2, hp2, hv2⟩ := alphabeta_ok d (pushSt s c) a 99999999 false r s₂ heq
      have hp2' : s₂.parents = s.board :: s.parents := hp2
      have hv2' : r = alphabetaP d c a 99999999 false := hv2
      subst hv2'
      have hpop : popSt s₂ = some { s₂ with board := s.board, parents := s.parents } := by
        simp [popSt, hp2']
      rw [decideLoopWP]
      by_cases hsel : alphabetaP d c a 99999999 false > m ∨ best = none
      · simp only [hpop, if_pos hsel] at h
        simp only [if_pos hsel]
        by_cases hbk : (alphabetaP d c a 99999999 false : Int) > 99999999
        · simp only [if_pos hbk, Except.ok.injEq, Prod.mk.injEq] at h ⊢
          obtain ⟨hq, hs⟩ := h
          subst hs
          refine ⟨by first | rfl | trivial, by first | rfl | trivial, ?_⟩
          first | exact hq.symm | exact hq | simp [hq.symm] | simp [hq]
        · simp only [if_neg hbk] at h ⊢
          obtain ⟨hb3, hp3, hv3⟩ := ih _ _ _ _ _ _ h
          exact ⟨hb3, hp3, hv3⟩
      · simp only [hpop, if_neg hsel] at h
        simp only [if_neg hsel]
        by_cases hbk : (m : Int) > 99999999
        · simp only [if_pos hbk, Except.ok.injEq, Prod.mk.injEq] at h ⊢
          obtain ⟨hq, hs⟩ := h
          subst hs
          refine ⟨by first | rfl | trivial, by first | rfl | trivial, ?_⟩
          first | exact hq.symm | exact hq | simp [hq.symm] | simp [hq]
        · simp only [if_neg hbk] at h ⊢
          obtain ⟨hb3, hp3, hv3⟩ := ih _ _ _ _ _ _ h
          exact ⟨hb3, hp3, hv3⟩

theorem decideLoopB_ok (d : Nat) :
    ∀ (l : List (Nat × GTree)) (m : Int) (best : Option Nat) (bb : Int) (s : St)
      (q : Option Nat × Int) (s' : St),
      decideLoopB d l m best bb s = .ok (q, s') →
      s'.board = s.board ∧ s'.parents = s.parents ∧ q = decideLoopBP d l m best bb := by
  intro l
  induction l with
  | nil =>
    intro m best bb s q s' h
    simp only [decideLoopB, Except.ok.injEq, Prod.mk.injEq] at h
    obtain ⟨hq, hs⟩ := h
    subst hs
    refine ⟨by first | rfl | trivial, by first | rfl | trivial, ?_⟩
    first | exact hq.symm | exact hq | simp [decideLoopBP, hq.symm] | simp [decideLoopBP, hq]
  | cons p rest ih =>
    intro m best bb s q s' h
    obtain ⟨mv, c⟩ := p
    rw [decideLoopB] at h
    split at h
    · exact absurd h (by simp)
    · rename_i r s₂ heq
      obtain ⟨hb2, hp2, hv2⟩ := alphabeta_ok d (pushSt s c) (-99999999) bb true r s₂ heq
      have hp2' : s₂.parents = s.board :: s.parents := hp2
      have hv2' : r = alphabetaP d c (-99999999) bb true := hv2
      subst hv2'
      have hpop : popSt s₂ = some { s₂ with board := s.board, parents := s.parents } := by
        simp [popSt, hp2']
      rw [decideLoopBP]
      by_cases hsel : alphabetaP d c (-99999999) bb true < m ∨ best = none
      · simp only [hpop, if_pos hsel] at h
        simp only [if_pos hsel]
        by_cases hbk : (alphabetaP d c (-99999999) bb true : Int) < -99999999
        · simp only [if_pos hbk, Except.ok.injEq, Prod.mk.injEq] at h ⊢
          obtain ⟨hq, hs⟩ := h
          subst hs
          refine ⟨by first | rfl | trivial, by first | rfl | trivial, ?_⟩
          first | exact hq.symm | exact hq | simp [hq.symm] | simp [hq]
        · simp only [if_neg hbk] at h ⊢
          obtain ⟨hb3, hp3, hv3⟩ := ih _ _ _ _ _ _ h
          exact ⟨hb3, hp3, hv3⟩
      · simp only [hpop, if_neg hsel] at h
        simp only [if_neg hsel]
        by_cases hbk : (m : Int) < -99999999
        · simp only [if_pos hbk, Except.ok.injEq, Prod.mk.injEq] at h ⊢
          obtain ⟨hq, hs⟩ := h
          subst hs
          refine ⟨by first | rfl | trivial, by first | rfl | trivial, ?_⟩
          first | exact hq.symm | exact hq | simp [hq.symm] | simp [hq]
        · simp only [if_neg hbk] at h ⊢
          obtain ⟨hb3, hp3, hv3⟩ := ih _ _ _ _ _ _ h
          exact ⟨hb3, hp3, hv3⟩

/-- C3: every completed (non-cancelled) search call — `alphabeta` or
`decide` — leaves the board bit-identical to the board before the call: the
current position and the whole push/pop stack are restored (only the poll
clock, which is part of the timer model and not of the board, advances). -/
theorem c3_push_pop_balance :
    (∀ (s : St) (d : Nat) (a b : Int) (mx : Bool) (v : Int) (s' : St),
        alphabeta s d a b mx = .ok (v, s') →
        s'.board = s.board ∧ s'.parents = s.parents)
    ∧ (∀ (s : St) (prev : Option PlayResult) (shuffled : List (Nat × GTree))
        (d : Nat) (turn : Bool) (r : PlayResult) (s' : St),
        decideRun s prev shuffled d turn = .ok (r, s') →
        s'.board = s.board ∧ s'.parents = s.parents) := by
  constructor
  · intro s d a b mx v s' h
    obtain ⟨h1, h2, _⟩ := alphabeta_ok d s a b mx v s' h
    exact ⟨h1, h2⟩
  · intro s prev shuffled d turn r s' h
    rw [decideRun] at h
    split at h
    · exact absurd h (by simp)
    · rename_i ordered heq
      split at h
      · exact absurd h (by simp)
      · rename_i mv sc s'' heq2
        simp only [Except.ok.injEq, Prod.mk.injEq] at h
        obtain ⟨hr, hs⟩ := h
        subst hs
        cases turn with
        | false =>
          simp only [Bool.false_eq_true, if_false] at heq2
          obtain ⟨h1, h2, _⟩ := decideLoopB_ok d ordered 99999999 none 99999999 s _ _ heq2
          exact ⟨h1, h2⟩
        | true =>
          simp only [if_true] at heq2
          obtain ⟨h1, h2, _⟩ := decideLoopW_ok d ordered (-99999999) none (-99999999) s _ _ heq2
          exact ⟨h1, h2⟩

/-- A small demonstration tree: two terminal children of values 5 and 7. -/
def demoA : GTree := .node 5 true []

def demoB : GTree := .node 7 true []

def demoRoot : GTree := .node 0 false [(0, demoA), (1, demoB)]

def demoSt : St := { board := demoRoot, parents := [], clock := 0, limit := none }

/-- The same position with the timer firing at the very first poll. -/
def demoCancelSt : St := { board := demoRoot, parents := [], clock := 0, limit := some 1 }

/-- Witness for `c3_push_pop_balance` on a concrete completed search. -/
theorem c3_push_pop_balance_witness :
    (demoSt.parents = [] ∧ demoSt.board = demoRoot)
    ∧ ((alphabeta demoSt 1 (-99999999) 99999999 true = .ok (7, { demoSt with clock := 3 })) ∧
        ({ demoSt with clock := 3 } : St).board = demoSt.board ∧
        ({ demoSt with clock := 3 } : St).parents = demoSt.parents) :=
  ⟨⟨rfl, rfl⟩, rfl,
    c3_push_pop_balance.1 demoSt 1 (-99999999) 99999999 true 7 { demoSt with clock := 3 } rfl⟩

/-- Once the flag fires it stays set for every later poll. -/
theorem fired_tick (s : St) (h : fired s = true) : fired (tick s) = true := by
  cases hl : s.limit with
  | none => rw [fired, hl] at h; exact absurd h (by simp)
  | some k =>
    rw [fired, hl] at h
    rw [fired]
    have hl' : (tick s).limit = some k := hl
    rw [hl']
    have hc : (tick s).clock = s.clock + 1 := rfl
    rw [hc]
    simp only [decide_eq_true_eq] at h ⊢
    omega

/-- C5: whenever the cancellation flag is set, every `alphabeta` call — at
any depth including 0, on any board, with any window — fails with the
cancellation signal as its first action (the error is independent of the
board, the depth and the window, so no evaluation, terminal check or move
expansion precedes it), and every enclosing loop — the `alphabeta` move
loops and the `decide` root loops — propagates a failing recursive call
unchanged to its caller. -/
theorem c5_cancellation_checked_first :
    (∀ (s : St) (d : Nat) (a b : Int) (mx : Bool), fired s = true →
        alphabeta s d a b mx = .error (.timeout, tick s))
    ∧ (∀ (rec : St → Int → Except (SErr × St) (Int × St)) (b : Int) (mv : Nat) (c : GTree)
        (rest : List (Nat × GTree)) (m a : Int) (s : St) (e : SErr × St),
        rec (pushSt s c) a = .error e →
        abLoopMax rec b ((mv, c) :: rest) m a s = .error e)
    ∧ (∀ (rec : St → Int → Except (SErr × St) (Int × St)) (a : Int) (mv : Nat) (c : GTree)
        (rest : List (Nat × GTree)) (m bb : Int) (s : St) (e : SErr × St),
        rec (pushSt s c) bb = .error e →
        abLoopMin rec a ((mv, c) :: rest) m bb s = .error e)
    ∧ (∀ (d : Nat) (mv : Nat) (c : GTree) (rest : List (Nat × GTree)) (m : Int)
        (best : Option Nat) (a : Int) (s : St) (e : SErr × St),
        alphabeta (pushSt s c) d a 99999999 false = .error e →
        decideLoopW d ((mv, c) :: rest) m best a s = .error e)
    ∧ (∀ (d : Nat) (mv : Nat) (c : GTree) (rest : List (Nat × GTree)) (m : Int)
        (best : Option Nat) (bb : Int) (s : St) (e : SErr × St),
        alphabeta (pushSt s c) d (-99999999) bb true = .error e →
        decideLoopB d ((mv, c) :: rest) m best bb s = .error e) := by
  refine ⟨?_, ?_, ?_, ?_, ?_⟩
  · intro s d a b mx hf
    have hf' : fired (tick s) = true := fired_tick s hf
    cases d with
    | zero => simp [alphabeta, hf']
    | succ d' => simp [alphabeta, hf']
  · intro rec b mv c rest m a s e h
    simp only [abLoopMax, h]
  · intro rec a mv c rest m bb s e h
    simp only [abLoopMin, h]
  · intro d mv c rest m best a s e h
    simp only [decideLoopW, h]
  · intro d mv c rest m best bb s e h
    simp only [decideLoopB, h]

/-- A state whose flag is already set at entry. -/
def sFired : St := { board := demoRoot, parents := [], clock := 0, limit := some 0 }

/-- Witness for `c5_cancellation_checked_first` at a concrete fired state. -/
theorem c5_cancellation_checked_first_witness :
    fired sFired = true
    ∧ alphabeta sFired 0 (-99999999) 99999999 true = .error (.timeout, tick sFired) :=
  ⟨rfl, c5_cancellation_checked_first.1 sFired 0 (-99999999) 99999999 true rfl⟩

/-! ### C10: `decide` on a position with no legal moves -/

def noMoveBoard : GTree := .node 0 false []

def sNoMoves : St := { board := noMoveBoard, parents := [], clock := 0, limit := none }

/-- C10 counterexample: when a previous iteration's result is recorded
(`self.move` is a `PlayResult`, here one with `move = None`, exactly what a
previous no-legal-moves iteration records), `decide` on a root with no legal
moves does NOT return normally: `legal_moves.remove(self.move.move)` raises
`ValueError`, because the empty move list contains no entry equal to the
recorded move. -/
theorem c10_counterexample :
    decideRun sNoMoves (some ⟨none⟩) [] 1 true = .error (.value, sNoMoves) := rfl

/-- C10, amended: when the root position has no legal moves AND no previous
best move is recorded (`self.move is None`, i.e. the first deepening
iteration), `decide` returns normally with a `PlayResult` whose move is
`None` — the root move loop body never executes and the state is returned
unchanged. -/
theorem c10_no_moves_returns_none (s : St) (d : Nat) (turn : Bool)
    (h : s.board.children = []) :
    decideRun s none [] d turn = .ok (⟨none⟩, s) := by
  cases turn
  · rfl
  · rfl

/-- Witness for `c10_no_moves_returns_none`. -/
theorem c10_no_moves_returns_none_witness :
    decideRun sNoMoves none [] 1 true = .ok (⟨none⟩, sNoMoves) :=
  c10_no_moves_returns_none sNoMoves 1 true rfl

/-! ### C4: the controller catches cancellation -/

/-- On a failed deepening loop, the recorded `self.move` is either the value
it entered with or the result of some completed `decide` call. -/
theorem searchGo_failed_prev (sh : Nat → List (Nat × GTree)) (turn : Bool) :
    ∀ (fuel : Nat) (s : St) (prev : Option PlayResult) (d : Nat) (e : SErr)
      (prev' : Option PlayResult) (sE : St),
      searchGo sh turn fuel s prev d = .failed e prev' sE →
      prev' = prev ∨ ∃ (s₁ : St) (p₁ : Option PlayResult) (d₁ : Nat) (r : PlayResult) (s₂ : St),
        decideRun s₁ p₁ (sh d₁) d₁ turn = .ok (r, s₂) ∧ prev' = some r := by
  intro fuel
  induction fuel with
  | zero =>
    intro s prev d e prev' sE h
    rw [searchGo] at h
    exact absurd h (by simp)
  | succ fuel ih =>
    intro s prev d e prev' sE h
    rw [searchGo] at h
    split at h
    · rename_i res s' heq
      rcases ih _ _ _ _ _ _ h with h1 | h2
      · right
        exact ⟨s, prev, d, res, s', heq, h1⟩
      · right
        exact h2
    · rename_i e' sE' heq
      left
      cases h
      rfl

/-- C4: when cancellation fires during an iteration of `decide`, `search`
catches it: it never returns the cancellation failure (first conjunct); if
some depth completed, it returns the move recorded by the last fully
completed depth, which is the result of a completed `decide` call (second
conjunct); and if no depth ever completed, it returns the first legal move
of the original position, read from the snapshot taken before the search
began (third conjunct). -/
theorem c4_cancellation_caught (sh : Nat → List (Nat × GTree)) (turn : Bool) (s : St) :
    (∀ sE : St, searchRun sh turn s ≠ .error (.timeout, sE))
    ∧ (∀ (r : PlayResult) (sE : St),
        searchGo sh turn 99 s none 1 = .failed .timeout (some r) sE →
        searchRun sh turn s = .ok (some r, sE)
        ∧ ∃ (s₁ : St) (p₁ : Option PlayResult) (d₁ : Nat) (s₂ : St),
            decideRun s₁ p₁ (sh d₁) d₁ turn = .ok (r, s₂))
    ∧ (∀ (sE : St) (mv : Nat) (c : GTree) (rest : List (Nat × GTree)),
        searchGo sh turn 99 s none 1 = .failed .timeout none sE →
        s.board.children = (mv, c) :: rest →
        searchRun sh turn s = .ok (some ⟨some mv⟩, sE)) := by
  refine ⟨?_, ?_, ?_⟩
  · intro sE
    cases hgo : searchGo sh turn 99 s none 1 with
    | finished prev s' => simp [searchRun, hgo]
    | failed e prev sE' =>
      cases e with
      | timeout =>
        cases prev with
        | some r => simp [searchRun, hgo]
        | none =>
          cases hch : s.board.children with
          | nil => simp [searchRun, hgo, hch]
          | cons p rest =>
            obtain ⟨mv, c⟩ := p
            simp [searchRun, hgo, hch]
      | value => simp [searchRun, hgo]
      | stack => simp [searchRun, hgo]
      | index => simp [searchRun, hgo]
  · intro r sE hgo
    constructor
    · simp [searchRun, hgo]
    · rcases searchGo_failed_prev sh turn 99 s none 1 .timeout (some r) sE hgo with h1 | h2
      · exact absurd h1 (by simp)
      · obtain ⟨s₁, p₁, d₁, r', s₂, heq, hsome⟩ := h2
        obtain rfl : r = r' := Option.some.inj hsome
        exact ⟨s₁, p₁, d₁, s₂, heq⟩
  · intro sE mv c rest hgo hch
    simp [searchRun, hgo, hch]

/-- Witness for `c4_cancellation_caught`: the timer fires at the first poll,
before depth 1 completes, and `search` still returns the first legal move
of the original position. -/
theorem c4_cancellation_caught_witness :
    searchRun (fun _ => demoRoot.children) true demoCancelSt
      = .ok (some ⟨some 0⟩,
          { board := demoA, parents := [demoRoot], clock := 1, limit := some 1 }) :=
  (c4_cancellation_caught (fun _ => demoRoot.children) true demoCancelSt).2.2
    { board := demoA, parents := [demoRoot], clock := 1, limit := some 1 }
    0 demoA [(1, demoB)] rfl rfl

/-! ### C2: alpha-beta search agrees with exhaustive minimax

The development follows the classical clamp argument: the pruned value
agrees with the exhaustive value after clamping to the current window, and
at the root the window is effectively infinite because every value the
search can produce is bounded by the sentinels plus the depth bias. -/

theorem foldMaxMM_ge_seed (f : GTree → Int) :
    ∀ (l : List (Nat × GTree)) (m : Int), m ≤ foldMaxMM f l m := by
  intro l
  induction l with
  | nil => intro m; rw [foldMaxMM]
  | cons p rest ih =>
    intro m
    obtain ⟨mv, c⟩ := p
    rw [foldMaxMM]
    exact le_trans (le_max_left m (f c)) (ih (max m (f c)))

theorem foldMinMM_le_seed (f : GTree → Int) :
    ∀ (l : List (Nat × GTree)) (m : Int), foldMinMM f l m ≤ m := by
  intro l
  induction l with
  | nil => intro m; rw [foldMinMM]
  | cons p rest ih =>
    intro m
    obtain ⟨mv, c⟩ := p
    rw [foldMinMM]
    exact le_trans (ih (min m (f c))) (min_le_left m (f c))

theorem foldMaxMM_seed_max (f : GTree → Int) :
    ∀ (l : List (Nat × GTree)) (m₁ m₂ : Int),
      foldMaxMM f l (max m₁ m₂) = max m₁ (foldMaxMM f l m₂) := by
  intro l
  induction l with
  | nil => intro m₁ m₂; rw [foldMaxMM, foldMaxMM]
  | cons p rest ih =>
    intro m₁ m₂
    obtain ⟨mv, c⟩ := p
    rw [foldMaxMM, foldMaxMM]
    have h : max (max m₁ m₂) (f c) = max m₁ (max m₂ (f c)) := by omega
    rw [h, ih]

theorem foldMinMM_seed_min (f : GTree → Int) :
    ∀ (l : List (Nat × GTree)) (m₁ m₂ : Int),
      foldMinMM f l (min m₁ m₂) = min m₁ (foldMinMM f l m₂) := by
  intro l
  induction l with
  | nil => intro m₁ m₂; rw [foldMinMM, foldMinMM]
  | cons p rest ih =>
    intro m₁ m₂
    obtain ⟨mv, c⟩ := p
    rw [foldMinMM, foldMinMM]
    have h : min (min m₁ m₂) (f c) = min m₁ (min m₂ (f c)) := by omega
    rw [h, ih]

theorem foldMaxMM_decomp (f : GTree → Int) (l : List (Nat × GTree)) (r : Int)
    (hr : -99999999 ≤ r) :
    foldMaxMM f l r = max r (foldMaxMM f l (-99999999)) := by
  have h : r = max r (-99999999) := by omega
  conv_lhs => rw [h]
  exact foldMaxMM_seed_max f l r (-99999999)

theorem foldMinMM_decomp (f : GTree → Int) (l : List (Nat × GTree)) (r : Int)
    (hr : r ≤ 99999999) :
    foldMinMM f l r = min r (foldMinMM f l 99999999) := by
  have h : r = min r 99999999 := by omega
  conv_lhs => rw [h]
  exact foldMinMM_seed_min f l r 99999999

theorem foldMaxMM_range (f : GTree → Int) :
    ∀ (l : List (Nat × GTree)) (m : Int),
      -99999999 ≤ m → m ≤ 99999999 →
      (∀ p ∈ l, -99999999 ≤ f p.2 ∧ f p.2 ≤ 99999999) →
      -99999999 ≤ foldMaxMM f l m ∧ foldMaxMM f l m ≤ 99999999 := by
  intro l
  induction l with
  | nil => intro m h1 h2 _; rw [foldMaxMM]; exact ⟨h1, h2⟩
  | cons p rest ih =>
    intro m h1 h2 hf
    obtain ⟨mv, c⟩ := p
    rw [foldMaxMM]
    have hcp := hf (mv, c) (by simp)
    have hc1 : -99999999 ≤ f c := hcp.1
    have hc2 : f c ≤ 99999999 := hcp.2
    exact ih (max m (f c)) (by omega) (by omega)
      (fun q hq => hf q (List.mem_cons_of_mem _ hq))

theorem foldMinMM_range (f : GTree → Int) :
    ∀ (l : List (Nat × GTree)) (m : Int),
      -99999999 ≤ m → m ≤ 99999999 →
      (∀ p ∈ l, -99999999 ≤ f p.2 ∧ f p.2 ≤ 99999999) →
      -99999999 ≤ foldMinMM f l m ∧ foldMinMM f l m ≤ 99999999 := by
  intro l
  induction l with
  | nil => intro m h1 h2 _; rw [foldMinMM]; exact ⟨h1, h2⟩
  | cons p rest ih =>
    intro m h1 h2 hf
    obtain ⟨mv, c⟩ := p
    rw [foldMinMM]
    have hcp := hf (mv, c) (by simp)
    have hc1 : -99999999 ≤ f c := hcp.1
    have hc2 : f c ≤ 99999999 := hcp.2
    exact ih (min m (f c)) (by omega) (by omega)
      (fun q hq => hf q (List.mem_cons_of_mem _ hq))

/-- Exhaustive minimax values stay within the sentinel window for bounded
trees and depths up to 4. -/
theorem mmVal_range : ∀ (d : Nat) (t : GTree) (mx : Bool), Bounded t → d ≤ 4 →
    -99999999 ≤ mmVal d t mx ∧ mmVal d t mx ≤ 99999999 := by
  intro d
  induction d with
  | zero =>
    intro t mx hb hd
    cases hb with
    | mk h g cs hl hr hc =>
      rw [mmVal]
      cases mx with
      | false =>
        have : leafVal (GTree.node h g cs) 0 false = h + 0 := rfl
        rw [this]
        omega
      | true =>
        have : leafVal (GTree.node h g cs) 0 true = h - 0 := rfl
        rw [this]
        omega
  | succ d' ih =>
    intro t mx hb hd
    cases hb with
    | mk h g cs hl hr hc =>
      rw [mmVal]
      by_cases hg : (GTree.node h g cs).gameOver = true
      · simp only [hg, if_true]
        cases mx with
        | false =>
          have : leafVal (GTree.node h g cs) (d' + 1) false = h + (d' + 1 : Nat) := rfl
          rw [this]
          omega
        | true =>
          have : leafVal (GTree.node h g cs) (d' + 1) true = h - (d' + 1 : Nat) := rfl
          rw [this]
          omega
      · have hg' : (GTree.node h g cs).gameOver = false := by
          revert hg
          cases (GTree.node h g cs).gameOver <;> simp
        simp only [hg', Bool.false_eq_true, if_false]
        cases mx with
        | false =>
          simp only [Bool.false_eq_true, if_false]
          exact foldMinMM_range _ _ 99999999 (by omega) (by omega)
            (fun p hp => ih p.2 true (hc p hp) (by omega))
        | true =>
          simp only [if_true]
          exact foldMaxMM_range _ _ (-99999999) (by omega) (by omega)
            (fun p hp => ih p.2 false (hc p hp) (by omega))

theorem abLoopMaxP_range (f : GTree → Int → Int) (b : Int) :
    ∀ (l : List (Nat × GTree)) (m a : Int),
      -99999999 ≤ m → m ≤ 99999999 →
      (∀ p ∈ l, ∀ a', -99999999 ≤ f p.2 a' ∧ f p.2 a' ≤ 99999999) →
      -99999999 ≤ abLoopMaxP f b l m a ∧ abLoopMaxP f b l m a ≤ 99999999 := by
  intro l
  induction l with
  | nil => intro m a h1 h2 _; rw [abLoopMaxP]; exact ⟨h1, h2⟩
  | cons p rest ih =>
    intro m a h1 h2 hf
    obtain ⟨mv, c⟩ := p
    rw [abLoopMaxP]
    have hcp := hf (mv, c) (by simp) a
    have hc1 : -99999999 ≤ f c a := hcp.1
    have hc2 : f c a ≤ 99999999 := hcp.2
    by_cases hcut : max m (f c a) > b
    · simp only [if_pos hcut]
      omega
    · simp only [if_neg hcut]
      exact ih (max m (f c a)) (max a (max m (f c a))) (by omega) (by omega)
        (fun q hq => hf q (List.mem_cons_of_mem _ hq))

theorem abLoopMinP_range (f : GTree → Int → Int) (a : Int) :
    ∀ (l : List (Nat × GTree)) (m bb : Int),
      -99999999 ≤ m → m ≤ 99999999 →
      (∀ p ∈ l, ∀ b', -99999999 ≤ f p.2 b' ∧ f p.2 b' ≤ 99999999) →
      -99999999 ≤ abLoopMinP f a l m bb ∧ abLoopMinP f a l m bb ≤ 99999999 := by
  intro l
  induction l with
  | nil => intro m bb h1 h2 _; rw [abLoopMinP]; exact ⟨h1, h2⟩
  | cons p rest ih =>
    intro m bb h1 h2 hf
    obtain ⟨mv, c⟩ := p
    rw [abLoopMinP]
    have hcp := hf (mv, c) (by simp) bb
    have hc1 : -99999999 ≤ f c bb := hcp.1
    have hc2 : f c bb ≤ 99999999 := hcp.2
    by_cases hcut : min m (f c bb) < a
    · simp only [if_pos hcut]
      omega
    · simp only [if_neg hcut]
      exact ih (min m (f c bb)) (min bb (min m (f c bb))) (by omega) (by omega)
        (fun q hq => hf q (List.mem_cons_of_mem _ hq))

/-- Pruned values stay within the sentinel window for bounded trees and
depths up to 4, for every window. -/
theorem alphabetaP_range : ∀ (d : Nat) (t : GTree) (a b : Int) (mx : Bool),
    Bounded t → d ≤ 4 →
    -99999999 ≤ alphabetaP d t a b mx ∧ alphabetaP d t a b mx ≤ 99999999 := by
  intro d
  induction d with
  | zero =>
    intro t a b mx hb hd
    cases hb with
    | mk h g cs hl hr hc =>
      rw [alphabetaP]
      cases mx with
      | false =>
        have : leafVal (GTree.node h g cs) 0 false = h + 0 := rfl
        rw [this]
        omega
      | true =>
        have : leafVal (GTree.node h g cs) 0 true = h - 0 := rfl
        rw [this]
        omega
  | succ d' ih =>
    intro t a b mx hb hd
    cases hb with
    | mk h g cs hl hr hc =>
      rw [alphabetaP]
      by_cases hg : (GTree.node h g cs).gameOver = true
      · simp only [hg, if_true]
        cases mx with
        | false =>
          have : leafVal (GTree.node h g cs) (d' + 1) false = h + (d' + 1 : Nat) := rfl
          rw [this]
          omega
        | true =>
          have : leafVal (GTree.node h g cs) (d' + 1) true = h - (d' + 1 : Nat) := rfl
          rw [this]
          omega
      · have hg' : (GTree.node h g cs).gameOver = false := by
          revert hg
          cases (GTree.node h g cs).gameOver <;> simp
        simp only [hg', Bool.false_eq_true, if_false]
        cases mx with
        | false =>
          simp only [Bool.false_eq_true, if_false]
          exact abLoopMinP_range _ _ _ 99999999 b (by omega) (by omega)
            (fun p hp b' => ih p.2 a b' true (hc p hp) (by omega))
        | true =>
          simp only [if_true]
          exact abLoopMaxP_range _ _ _ (-99999999) a (by omega) (by omega)
            (fun p hp a' => ih p.2 a' b false (hc p hp) (by omega))

/-- Clamp lemma for the maximizing loop: the pruned fold agrees with the
exhaustive fold after clamping to the window [a, b]. -/
theorem abLoopMaxP_clamp (f : GTree → Int → Int) (g : GTree → Int) (a b : Int)
    (hab : a ≤ b) (ha : -99999999 ≤ a) (hbb : b ≤ 99999999) :
    ∀ (l : List (Nat × GTree)) (m α : Int),
      (∀ p ∈ l, ∀ a', -99999999 ≤ a' → a' ≤ b →
        max a' (min b (f p.2 a')) = max a' (min b (g p.2))) →
      (∀ p ∈ l, ∀ a', -99999999 ≤ f p.2 a' ∧ f p.2 a' ≤ 99999999) →
      (∀ p ∈ l, -99999999 ≤ g p.2 ∧ g p.2 ≤ 99999999) →
      -99999999 ≤ m → m ≤ b → α = max a m →
      max a (min b (abLoopMaxP f b l m α)) = max a (min b (foldMaxMM g l m)) := by
  intro l
  induction l with
  | nil =>
    intro m α h1 h2 h3 hm1 hm2 hα
    rw [abLoopMaxP, foldMaxMM]
  | cons p rest ih =>
    intro m α h1 h2 h3 hm1 hm2 hα
    obtain ⟨mv, c⟩ := p
    subst hα
    rw [abLoopMaxP, foldMaxMM]
    have hchild' := h1 (mv, c) (by simp) (max a m) (by omega) (by omega)
    have hchild : max (max a m) (min b (f c (max a m))) = max (max a m) (min b (g c)) :=
      hchild'
    have hrp := h2 (mv, c) (by simp) (max a m)
    have hr1 : -99999999 ≤ f c (max a m) := hrp.1
    have hr2 : f c (max a m) ≤ 99999999 := hrp.2
    have hvp := h3 (mv, c) (by simp)
    have hv1 : -99999999 ≤ g c := hvp.1
    have hv2 : g c ≤ 99999999 := hvp.2
    by_cases hcut : max m (f c (max a m)) > b
    · simp only [if_pos hcut]
      have hge := foldMaxMM_ge_seed g rest (max m (g c))
      omega
    · simp only [if_neg hcut]
      have hmx : max (max a m) (max m (f c (max a m))) = max a (max m (f c (max a m))) := by
        omega
      rw [hmx]
      rw [ih (max m (f c (max a m))) (max a (max m (f c (max a m))))
        (fun q hq => h1 q (List.mem_cons_of_mem _ hq))
        (fun q hq => h2 q (List.mem_cons_of_mem _ hq))
        (fun q hq => h3 q (List.mem_cons_of_mem _ hq))
        (by omega) (by omega) rfl]
      rw [foldMaxMM_seed_max g rest m (f c (max a m)), foldMaxMM_seed_max g rest m (g c)]
      rw [foldMaxMM_decomp g rest (f c (max a m)) (by omega),
        foldMaxMM_decomp g rest (g c) (by omega)]
      omega

/-- Clamp lemma for the minimizing loop. -/
theorem abLoopMinP_clamp (f : GTree → Int → Int) (g : GTree → Int) (a b : Int)
    (hab : a ≤ b) (ha : -99999999 ≤ a) (hbb : b ≤ 99999999) :
    ∀ (l : List (Nat × GTree)) (m β : Int),
      (∀ p ∈ l, ∀ b', a ≤ b' → b' ≤ 99999999 →
        max a (min b' (f p.2 b')) = max a (min b' (g p.2))) →
      (∀ p ∈ l, ∀ b', -99999999 ≤ f p.2 b' ∧ f p.2 b' ≤ 99999999) →
      (∀ p ∈ l, -99999999 ≤ g p.2 ∧ g p.2 ≤ 99999999) →
      a ≤ m → m ≤ 99999999 → β = min b m →
      max a (min b (abLoopMinP f a l m β)) = max a (min b (foldMinMM g l m)) := by
  intro l
  induction l with
  | nil =>
    intro m β h1 h2 h3 hm1 hm2 hβ
    rw [abLoopMinP, foldMinMM]
  | cons p rest ih =>
    intro m β h1 h2 h3 hm1 hm2 hβ
    obtain ⟨mv, c⟩ := p
    subst hβ
    rw [abLoopMinP, foldMinMM]
    have hchild' := h1 (mv, c) (by simp) (min b m) (by omega) (by omega)
    have hchild : max a (min (min b m) (f c (min b m))) = max a (min (min b m) (g c)) :=
      hchild'
    have hrp := h2 (mv, c) (by simp) (min b m)
    have hr1 : -99999999 ≤ f c (min b m) := hrp.1
    have hr2 : f c (min b m) ≤ 99999999 := hrp.2
    have hvp := h3 (mv, c) (by simp)
    have hv1 : -99999999 ≤ g c := hvp.1
    have hv2 : g c ≤ 99999999 := hvp.2
    by_cases hcut : min m (f c (min b m)) < a
    · simp only [if_pos hcut]
      have hle := foldMinMM_le_seed g rest (min m (g c))
      omega
    · simp only [if_neg hcut]
      have hmn : min (min b m) (min m (f c (min b m))) = min b (min m (f c (min b m))) := by
        omega
      rw [hmn]
      rw [ih (min m (f c (min b m))) (min b (min m (f c (min b m))))
        (fun q hq => h1 q (List.mem_cons_of_mem _ hq))
        (fun q hq => h2 q (List.mem_cons_of_mem _ hq))
        (fun q hq => h3 q (List.mem_cons_of_mem _ hq))
        (by omega) (by omega) rfl]
      rw [foldMinMM_seed_min g rest m (f c (min b m)), foldMinMM_seed_min g rest m (g c)]
      rw [foldMinMM_decomp g rest (f c (min b m)) (by omega),
        foldMinMM_decomp g rest (g c) (by omega)]
      omega

/-- The Knuth–Moore clamp property for the code's alpha-beta search: for
bounded trees, depths up to 4 and any window inside the initial one, the
pruned value agrees with the exhaustive minimax value after clamping to
the window. -/
theorem alphabetaP_clamp : ∀ (d : Nat) (t : GTree) (a b : Int) (mx : Bool),
    Bounded t → d ≤ 4 → a ≤ b → -99999999 ≤ a → b ≤ 99999999 →
    max a (min b (alphabetaP d t a b mx)) = max a (min b (mmVal d t mx)) := by
  intro d
  induction d with
  | zero =>
    intro t a b mx hb hd hab ha hbb
    rw [alphabetaP, mmVal]
  | succ d' ih =>
    intro t a b mx hb hd hab ha hbb
    cases hb with
    | mk h g cs hl hr hc =>
      rw [alphabetaP, mmVal]
      by_cases hg : (GTree.node h g cs).gameOver = true
      · simp only [hg, if_true]
      · have hg' : (GTree.node h g cs).gameOver = false := by
          revert hg
          cases (GTree.node h g cs).gameOver <;> simp
        simp only [hg', Bool.false_eq_true, if_false]
        have hch : (GTree.node h g cs).children = cs := rfl
        rw [hch]
        cases mx with
        | true =>
          simp only [if_true]
          exact abLoopMaxP_clamp (fun c a' => alphabetaP d' c a' b false)
            (fun c => mmVal d' c false) a b hab ha hbb cs (-99999999) a
            (fun p hp a' ha' hab' => ih p.2 a' b false (hc p hp) (by omega) hab' ha' hbb)
            (fun p hp a' => alphabetaP_range d' p.2 a' b false (hc p hp) (by omega))
            (fun p hp => mmVal_range d' p.2 false (hc p hp) (by omega))
            (by omega) (by omega) (by omega)
        | false =>
          simp only [Bool.false_eq_true, if_false]
          exact abLoopMinP_clamp (fun c b' => alphabetaP d' c a b' true)
            (fun c => mmVal d' c true) a b hab ha hbb cs 99999999 b
            (fun p hp b' hab' hb' => ih p.2 a b' true (hc p hp) (by omega) hab' ha hb')
            (fun p hp b' => alphabetaP_range d' p.2 a b' true (hc p hp) (by omega))
            (fun p hp => mmVal_range d' p.2 true (hc p hp) (by omega))
            (by omega) (by omega) (by omega)

/-- The white root loop of `decide`, pruning enabled, picks the same move
and score as the exhaustive root loop, whenever the running alpha equals
the running best score (as it does from the initial window on). -/
theorem decideLoopWP_eq (d : Nat) (hd : d ≤ 4) :
    ∀ (l : List (Nat × GTree)) (m : Int) (best : Option Nat),
      (∀ p ∈ l, Bounded p.2) →
      -99999999 ≤ m → m ≤ 99999999 → (best = none → m = -99999999) →
      decideLoopWP d l m best m = rootMMW d l m best := by
  intro l
  induction l with
  | nil =>
    intro m best hb h1 h2 h3
    rw [decideLoopWP, rootMMW]
  | cons p rest ih =>
    intro m best hb h1 h2 h3
    obtain ⟨mv, c⟩ := p
    have hbc : Bounded c := hb (mv, c) (by simp)
    have hclamp : max m (min 99999999 (alphabetaP d c m 99999999 false))
        = max m (min 99999999 (mmVal d c false)) :=
      alphabetaP_clamp d c m 99999999 false hbc hd h2 h1 le_rfl
    have hrr := alphabetaP_range d c m 99999999 false hbc hd
    have hvr := mmVal_range d c false hbc hd
    have hmr : max m (alphabetaP d c m 99999999 false) = max m (mmVal d c false) := by
      omega
    by_cases hsel : alphabetaP d c m 99999999 false > m ∨ best = none
    · have hselv : mmVal d c false > m ∨ best = none := by
        rcases hsel with hgt | hnone
        · left; omega
        · right; exact hnone
      have hge : m ≤ alphabetaP d c m 99999999 false := by
        rcases hsel with hgt | hnone
        · omega
        · have hm := h3 hnone
          omega
      have hrv : alphabetaP d c m 99999999 false = mmVal d c false := by
        rcases hsel with hgt | hnone
        · omega
        · have hm := h3 hnone
          omega
      rw [decideLoopWP, rootMMW, if_pos hsel, if_pos hselv]
      have hnb : ¬ (alphabetaP d c m 99999999 false > 99999999) := by omega
      rw [if_neg hnb]
      have hup : max m (alphabetaP d c m 99999999 false)
          = alphabetaP d c m 99999999 false := by omega
      rw [hup, hrv]
      exact ih (mmVal d c false) (some mv)
        (fun q hq => hb q (List.mem_cons_of_mem _ hq))
        (by omega) (by omega) (fun hn => absurd hn (by simp))
    · have hbn : best ≠ none := fun hn => hsel (Or.inr hn)
      have hselv : ¬ (mmVal d c false > m ∨ best = none) := by
        rintro (hv | hn)
        · exact hsel (Or.inl (by omega))
        · exact hbn hn
      rw [decideLoopWP, rootMMW, if_neg hsel, if_neg hselv]
      have hnb : ¬ ((m : Int) > 99999999) := by omega
      rw [if_neg hnb]
      have hup : max m m = m := by omega
      rw [hup]
      exact ih m best (fun q hq => hb q (List.mem_cons_of_mem _ hq)) h1 h2
        (fun hn => absurd hn hbn)

/-- The black root loop of `decide`, pruning enabled, picks the same move
and score as the exhaustive root loop. -/
theorem decideLoopBP_eq (d : Nat) (hd : d ≤ 4) :
    ∀ (l : List (Nat × GTree)) (m : Int) (best : Option Nat),
      (∀ p ∈ l, Bounded p.2) →
      -99999999 ≤ m → m ≤ 99999999 → (best = none → m = 99999999) →
      decideLoopBP d l m best m = rootMMB d l m best := by
  intro l
  induction l with
  | nil =>
    intro m best hb h1 h2 h3
    rw [decideLoopBP, rootMMB]
  | cons p rest ih =>
    intro m best hb h1 h2 h3
    obtain ⟨mv, c⟩ := p
    have hbc : Bounded c := hb (mv, c) (by simp)
    have hclamp : max (-99999999) (min m (alphabetaP d c (-99999999) m true))
        = max (-99999999) (min m (mmVal d c true)) :=
      alphabetaP_clamp d c (-99999999) m true hbc hd h1 le_rfl h2
    have hrr := alphabetaP_range d c (-99999999) m true hbc hd
    have hvr := mmVal_range d c true hbc hd
    have hmr : min m (alphabetaP d c (-99999999) m true) = min m (mmVal d c true) := by
      omega
    by_cases hsel : alphabetaP d c (-99999999) m true < m ∨ best = none
    · have hselv : mmVal d c true < m ∨ best = none := by
        rcases hsel with hlt | hnone
        · left; omega
        · right; exact hnone
      have hle : alphabetaP d c (-99999999) m true ≤ m := by
        rcases hsel with hlt | hnone
        · omega
        · have hm := h3 hnone
          omega
      have hrv : alphabetaP d c (-99999999) m true = mmVal d c true := by
        rcases hsel with hlt | hnone
        · omega
        · have hm := h3 hnone
          omega
      rw [decideLoopBP, rootMMB, if_pos hsel, if_pos hselv]
      have hnb : ¬ (alphabetaP d c (-99999999) m true < -99999999) := by omega
      rw [if_neg hnb]
      have hup : min m (alphabetaP d c (-99999999) m true)
          = alphabetaP d c (-99999999) m true := by omega
      rw [hup, hrv]
      exact ih (mmVal d c true) (some mv)
        (fun q hq => hb q (List.mem_cons_of_mem _ hq))
        (by omega) (by omega) (fun hn => absurd hn (by simp))
    · have hbn : best ≠ none := fun hn => hsel (Or.inr hn)
      have hselv : ¬ (mmVal d c true < m ∨ best = none) := by
        rintro (hv | hn)
        · exact hsel (Or.inl (by omega))
        · exact hbn hn
      rw [decideLoopBP, rootMMB, if_neg hsel, if_neg hselv]
      have hnb : ¬ ((m : Int) < -99999999) := by omega
      rw [if_neg hnb]
      have hup : min m m = m := by omega
      rw [hup]
      exact ih m best (fun q hq => hb q (List.mem_cons_of_mem _ hq)) h1 h2
        (fun hn => absurd hn hbn)

/-- C2: for any position (modelled by any root move list with sentinel-
bounded subtrees) and any depth up to 4, the move and the score produced by
the pruned root search of `decide` — initial window
(alpha, beta) = (-99999999, 99999999), cutoffs enabled — equal the move and
score of the exhaustive no-pruning minimax over the same tree, for both
sides to move. -/
theorem c2_alphabeta_equivalence (d : Nat) (l : List (Nat × GTree)) (turn : Bool)
    (s : St) (q : Option Nat × Int) (s' : St)
    (hb : ∀ p ∈ l, Bounded p.2) (hd : d ≤ 4)
    (h : (if turn then decideLoopW d l (-99999999) none (-99999999) s
          else decideLoopB d l 99999999 none 99999999 s) = .ok (q, s')) :
    q = rootMM l d turn := by
  cases turn with
  | true =>
    simp only [if_true] at h
    obtain ⟨_, _, hq⟩ := decideLoopW_ok d l (-99999999) none (-99999999) s q s' h
    rw [hq, rootMM]
    simp only [if_true]
    exact decideLoopWP_eq d hd l (-99999999) none hb (by omega) (by omega) (fun _ => rfl)
  | false =>
    simp only [Bool.false_eq_true, if_false] at h
    obtain ⟨_, _, hq⟩ := decideLoopB_ok d l 99999999 none 99999999 s q s' h
    rw [hq, rootMM]
    simp only [Bool.false_eq_true, if_false]
    exact decideLoopBP_eq d hd l 99999999 none hb (by omega) (by omega) (fun _ => rfl)

/-- Witness for `c2_alphabeta_equivalence` at a concrete tree and depth 1. -/
theorem c2_alphabeta_equivalence_witness :
    (if true then decideLoopW 1 demoRoot.children (-99999999) none (-99999999) demoSt
     else decideLoopB 1 demoRoot.children 99999999 none 99999999 demoSt)
      = .ok (((some 1, 8) : Option Nat × Int), { demoSt with clock := 2 })
    ∧ ((some 1, 8) : Option Nat × Int) = rootMM demoRoot.children 1 true :=
  ⟨rfl,
    c2_alphabeta_equivalence 1 demoRoot.children true demoSt (some 1, 8)
      { demoSt with clock := 2 }
      (by
        intro p hp
        have hp' : p = (0, demoA) ∨ p = (1, demoB) := by
          simpa [demoRoot, GTree.children] using hp
        rcases hp' with rfl | rfl
        · exact Bounded.mk 5 true [] (by norm_num) (by norm_num)
            (fun q hq => absurd hq (List.not_mem_nil q))
        · exact Bounded.mk 7 true [] (by norm_num) (by norm_num)
            (fun q hq => absurd hq (List.not_mem_nil q)))
      (by omega) rfl⟩

end Engine
